import Mathlib

/-!
Shallow embedding of the aibtc roadmap worker core (Cloudflare Pages functions).

JS values are embedded as follows: machine numbers appearing as versions and
counts are `Nat`; timestamps (epoch milliseconds) are `Int` so that JS
subtraction of dates is exact; a JS string field whose absent/null value is
only ever consumed through falsiness is embedded as `String` with `""`
standing for the absent value; a field that the code distinguishes between
"object present" and "object missing" is `Option`.  The KV store is passed
and returned explicitly; network fetches become oracle parameters.
-/

namespace Roadmap

/-- An AIBTC agent identity. A missing `agentId` is the empty string,
mirroring JS null/undefined falsiness. -/
structure Agent where
  btcAddress : String
  displayName : String
  agentId : String
deriving DecidableEq

/-- The last-fetched GitHub snapshot stored on an item (`item.githubData`).
`type` is `"repo"`, `"pr"` or `"issue"`; `""` models a snapshot object with
no `type` (falsy). `homepage` and `title` use `""` for null. `fetchedAt` is
`none` when the field is absent (a freshly created item whose fetch failed).
`notFoundCount` models `_notFoundCount` with 0 for the absent field. -/
structure GithubData where
  type : String
  state : String
  merged : Bool
  homepage : String
  title : String
  fetchedAt : Option Int
  notFoundCount : Nat
deriving DecidableEq

/-- A discovered website claim (`item.website`). -/
structure Website where
  url : String
  source : String
  discoveredAt : Int
deriving DecidableEq

/-- The explicit leader field (`item.leader`). `lastActiveAt` is `none`
when the field is missing, which the takeover path treats as epoch 0. -/
structure Leader where
  btcAddress : String
  displayName : String
  agentId : String
  profileUrl : String
  assignedAt : Int
  lastActiveAt : Option Int
deriving DecidableEq

/-- One entry of `item.ratings`. `review` is `""` for null. -/
structure Rating where
  agentId : String
  btcAddress : String
  displayName : String
  score : Int
  review : String
  ratedAt : Int
deriving DecidableEq

/-- The aggregate `item.reputation`. -/
structure Reputation where
  average : Rat
  count : Nat
deriving DecidableEq

/-- One entry of `item.deliverables` (only the fields the modelled code
reads). -/
structure Deliverable where
  url : String
  title : String
deriving DecidableEq

/-- A project record (`item`). `githubUrl` is `""` for the absent URL;
`mentions` is `none` when the item has no `mentions` object, otherwise the
count; `status` is the stored status string used by the legacy handlers. -/
structure Item where
  id : String
  title : String
  githubUrl : String
  githubData : Option GithubData
  status : String
  leader : Option Leader
  ratings : List Rating
  reputation : Reputation
  mentions : Option Nat
  contributors : List Agent
  searchTerms : List String
  website : Option Website
  deliverables : List Deliverable
  updatedAt : Int
deriving DecidableEq

/-- Source: `deriveStatus(item)` in `_tasks.js` — derive status from the
GitHub snapshot, the single source of truth. Any snapshot kind other than
`"repo"` and `"pr"` falls through to the issue rule, as in the source. -/
def deriveStatus (item : Item) : String :=
  match item.githubData with
  | none => "todo"
  | some gd =>
    if gd.type = "" then "todo"
    else if gd.type = "repo" then
      if gd.state = "archived" then "done" else "in-progress"
    else if gd.type = "pr" then
      if gd.merged then "done"
      else if gd.state = "closed" then "blocked"
      else "in-progress"
    else
      if gd.state = "closed" then "done" else "in-progress"

/-- A fixture item used by concrete witnesses; each witness overrides the
fields it needs. -/
def baseItem : Item :=
  { id := "r_00000000", title := "", githubUrl := "", githubData := none,
    status := "todo", leader := none, ratings := [],
    reputation := { average := 0, count := 0 }, mentions := none,
    contributors := [], searchTerms := [], website := none,
    deliverables := [], updatedAt := 0 }

/-- `deriveStatus` only ever produces one of the four derivable statuses. -/
theorem deriveStatus_mem (item : Item) :
    deriveStatus item = "todo" ∨ deriveStatus item = "done" ∨
    deriveStatus item = "in-progress" ∨ deriveStatus item = "blocked" := by
  unfold deriveStatus
  rcases item.githubData with _ | gd
  · exact Or.inl rfl
  · dsimp only
    split_ifs <;> simp

/-- C1: `deriveStatus` is a pure total function of the snapshot kind and
flags: no snapshot or no type gives `todo`; a repo gives `done` iff archived
else `in-progress`; a PR gives `done` if merged, else `blocked` if closed,
else `in-progress`; an issue gives `done` iff closed else `in-progress`;
and the result is never `shipped` or `paid`. -/
theorem C1_deriveStatus_pure (item : Item) :
    ((item.githubData = none ∨ ∃ gd, item.githubData = some gd ∧ gd.type = "") →
      deriveStatus item = "todo") ∧
    (∀ gd, item.githubData = some gd → gd.type = "repo" →
      deriveStatus item = if gd.state = "archived" then "done" else "in-progress") ∧
    (∀ gd, item.githubData = some gd → gd.type = "pr" →
      deriveStatus item =
        if gd.merged then "done"
        else if gd.state = "closed" then "blocked" else "in-progress") ∧
    (∀ gd, item.githubData = some gd → gd.type = "issue" →
      deriveStatus item = if gd.state = "closed" then "done" else "in-progress") ∧
    deriveStatus item ≠ "shipped" ∧ deriveStatus item ≠ "paid" := by
  refine ⟨?_, ?_, ?_, ?_, ?_, ?_⟩
  · rintro (h | ⟨gd, hgd, hty⟩)
    · simp [deriveStatus, h]
    · simp [deriveStatus, hgd, hty]
  · intro gd hgd hty
    simp only [deriveStatus, hgd, hty]
    rw [if_neg (by decide : ¬("repo" : String) = "")]
    simp
  · intro gd hgd hty
    simp only [deriveStatus, hgd, hty]
    rw [if_neg (by decide : ¬("pr" : String) = ""),
      if_neg (by decide : ¬("pr" : String) = "repo")]
    simp
  · intro gd hgd hty
    simp only [deriveStatus, hgd, hty]
    rw [if_neg (by decide : ¬("issue" : String) = ""),
      if_neg (by decide : ¬("issue" : String) = "repo"),
      if_neg (by decide : ¬("issue" : String) = "pr")]
  · rcases deriveStatus_mem item with h | h | h | h <;> rw [h] <;> decide
  · rcases deriveStatus_mem item with h | h | h | h <;> rw [h] <;> decide

/-- A merged-PR snapshot used by the C1 witness. -/
def mergedPrGd : GithubData :=
  { type := "pr", state := "closed", merged := true, homepage := "",
    title := "", fetchedAt := none, notFoundCount := 0 }

/-- The merged-PR item used by the C1 witness. -/
def mergedPrItem : Item := { baseItem with githubData := some mergedPrGd }

/-- Witness for C1: at concrete inputs, an item without snapshot derives
`todo` and a merged PR derives `done`. -/
theorem C1_deriveStatus_pure_witness :
    deriveStatus baseItem = "todo" ∧ deriveStatus mergedPrItem = "done" := by
  refine ⟨(C1_deriveStatus_pure baseItem).1 (Or.inl rfl), ?_⟩
  have h := (C1_deriveStatus_pure mergedPrItem).2.2.1 mergedPrGd rfl rfl
  simpa [mergedPrGd] using h

/-! ## Versioned store: saveData and saveRetry -/

/-- The `ConcurrencyError` thrown by `saveData` on a version mismatch. -/
inductive SaveError
  | concurrency
deriving DecidableEq

/-- The registry blob stored under `roadmap:items`. -/
structure RegistryData where
  writeVersion : Nat
  items : List Item
  updatedAt : Int
deriving DecidableEq

/-- The write-version currently on persistent storage: a missing blob, or a
blob without the field, reads as 0 (`current?.writeVersion || 0`). -/
def storedVersion : Option RegistryData → Nat
  | none => 0
  | some d => d.writeVersion

/-- Source: `saveData(env, data)` in `_tasks.js` — optimistic concurrency.
The KV content is passed explicitly; on success the result is the new
stored blob (version bumped by one, `updatedAt` refreshed). -/
def saveData (store : Option RegistryData) (data : RegistryData) (now : Int) :
    Except SaveError RegistryData :=
  let expectedVersion := data.writeVersion
  let currentVersion := storedVersion store
  if currentVersion ≠ expectedVersion then .error .concurrency
  else .ok { data with writeVersion := expectedVersion + 1, updatedAt := now }

/-- C3: `saveData` fails with the concurrency error iff the stored version
differs from the version captured in `data` (a missing blob counting as
version 0); on success it persists the registry with the version bumped by
exactly one and the items intact; and of two writers that both captured the
stored version, the first save succeeds and the second then conflicts. -/
theorem C3_saveData_occ (store : Option RegistryData) (dA dB : RegistryData)
    (nowA nowB : Int) :
    (saveData store dA nowA = .error .concurrency ↔
      storedVersion store ≠ dA.writeVersion) ∧
    (∀ res, saveData store dA nowA = .ok res →
      res.writeVersion = dA.writeVersion + 1 ∧ res.items = dA.items) ∧
    (dA.writeVersion = storedVersion store → dB.writeVersion = storedVersion store →
      ∃ res, saveData store dA nowA = .ok res ∧
        saveData (some res) dB nowB = .error .concurrency) := by
  refine ⟨?_, ?_, ?_⟩
  · unfold saveData
    dsimp only
    split
    · simp_all
    · simp_all
  · intro res h
    unfold saveData at h
    dsimp only at h
    split at h
    · cases h
    · cases h
      exact ⟨rfl, rfl⟩
  · intro hA hB
    refine ⟨{ dA with writeVersion := dA.writeVersion + 1, updatedAt := nowA }, ?_, ?_⟩
    · unfold saveData
      rw [if_neg]
      omega
    · unfold saveData
      rw [if_pos]
      simp only [storedVersion]
      omega

/-- Witness for C3: with a concrete store at version 4 and two writers that
both captured version 4, the first save succeeds and the second conflicts. -/
theorem C3_saveData_occ_witness :
    ∃ res,
      saveData (some { writeVersion := 4, items := [], updatedAt := 0 })
          { writeVersion := 4, items := [baseItem], updatedAt := 0 } 7 = .ok res ∧
      saveData (some res) { writeVersion := 4, items := [], updatedAt := 0 } 9 =
        .error .concurrency :=
  (C3_saveData_occ (some { writeVersion := 4, items := [], updatedAt := 0 })
    { writeVersion := 4, items := [baseItem], updatedAt := 0 }
    { writeVersion := 4, items := [], updatedAt := 0 } 7 9).2.2 rfl rfl

/-- The store contents a single `saveRetry` attempt observes: what the
attempt's `saveData` read, and what the post-conflict re-read saw. Between
the two reads, and between attempts, concurrent writers may change the
blob, so each attempt gets its own pair. -/
structure AttemptWorld where
  atSave : Option RegistryData
  atReread : Option RegistryData

/-- Outcome of `saveRetry`: the save took effect, or the final attempt
rethrew the `ConcurrencyError` (`if (attempt === maxRetries) throw err`),
or the loop body never ran (`maxRetries < 1`). -/
inductive RetryOutcome
  | saved (stored : RegistryData)
  | conflictRaised
  | noAttempt
deriving DecidableEq

/-- Source: the `for (let attempt = 1; attempt <= maxRetries; attempt++)`
loop of `saveRetry` in `_tasks.js`, recursing over the sequence of loop
counter values still to run. Alongside the outcome it returns the backoff
delays (ms) that were awaited, in order. On a conflict that is not the
final attempt the loop waits `min(100 * 2^(attempt-1), 5000)` ms, re-reads
the stored version (`data.writeVersion = fresh?.writeVersion || 0`) and
tries again with the in-memory changes intact. -/
def saveRetryGo (now : Int) (worlds : Nat → AttemptWorld) (maxRetries : Nat) :
    RegistryData → List Nat → RetryOutcome × List Nat
  | _, [] => (.noAttempt, [])
  | data, attempt :: rest =>
    match saveData (worlds attempt).atSave data now with
    | .ok res => (.saved res, [])
    | .error .concurrency =>
      if attempt = maxRetries then (.conflictRaised, [])
      else
        let backoff := min (100 * 2 ^ (attempt - 1)) 5000
        let fresh := (worlds attempt).atReread
        let next := saveRetryGo now worlds maxRetries
          { data with writeVersion := storedVersion fresh } rest
        (next.1, backoff :: next.2)

/-- Source: `saveRetry(env, data, maxRetries = 3)` with the default retry
budget used by every background scan: the loop counter runs 1, 2, 3. -/
def saveRetry (now : Int) (worlds : Nat → AttemptWorld) (data : RegistryData) :
    RetryOutcome × List Nat :=
  saveRetryGo now worlds 3 data ((List.range 3).map (· + 1))

/-- A schedule on which every attempt of the counterexample run conflicts:
the store is at version 1, 3, 5 at the three saves and the re-reads see
versions 2 and 4. -/
def alwaysConflictWorlds : Nat → AttemptWorld := fun a =>
  { atSave := some { writeVersion := 2 * a - 1, items := [], updatedAt := 0 },
    atReread := some { writeVersion := 2 * a, items := [], updatedAt := 0 } }

/-- Counterexample to C7 as stated: with a writer that loaded version 0 and
a store that keeps moving, all three attempts conflict and `saveRetry`
rethrows the `ConcurrencyError` (after waiting 100 ms and 200 ms), rather
than swallowing it: the claim that the retrying save "gives up ... rather
than propagating a failure" is false — the final attempt propagates. -/
theorem C7_saveRetry_counterexample :
    saveRetry 0 alwaysConflictWorlds { writeVersion := 0, items := [], updatedAt := 0 } =
      (.conflictRaised, [100, 200]) := by
  decide

/-- C7 (amended): the retrying save used by background scans retries up to
3 attempts; on each non-final conflict it waits `min(100·2^(a-1), 5000)` ms
(100 then 200 here), re-reads the stored write-version and re-applies the
already-computed in-memory changes (items intact); if every attempt
conflicts it rethrows the `ConcurrencyError` to the caller instead of
swallowing it, and if an attempt sees the re-read version it saves the
re-applied changes with that version bumped by one. -/
theorem C7_saveRetry_retry_then_raise (now : Int) (worlds : Nat → AttemptWorld)
    (data : RegistryData)
    (h1 : storedVersion (worlds 1).atSave ≠ data.writeVersion) :
    ((storedVersion (worlds 2).atSave ≠ storedVersion (worlds 1).atReread →
      storedVersion (worlds 3).atSave ≠ storedVersion (worlds 2).atReread →
      saveRetry now worlds data = (.conflictRaised, [100, 200]))) ∧
    (storedVersion (worlds 2).atSave = storedVersion (worlds 1).atReread →
      saveRetry now worlds data =
        (.saved { data with writeVersion := storedVersion (worlds 1).atReread + 1,
                            updatedAt := now }, [100])) := by
  have hr : (List.range 3).map (· + 1) = [1, 2, 3] := by decide
  constructor
  · intro h2 h3
    unfold saveRetry
    rw [hr, saveRetryGo]
    unfold saveData
    dsimp only
    rw [if_pos h1, if_neg (by omega : ¬(1 : Nat) = 3), saveRetryGo]
    unfold saveData
    dsimp only
    rw [if_pos h2, if_neg (by omega : ¬(2 : Nat) = 3), saveRetryGo]
    unfold saveData
    dsimp only
    rw [if_pos h3, if_pos rfl]
    decide
  · intro h2
    unfold saveRetry
    rw [hr, saveRetryGo]
    unfold saveData
    dsimp only
    rw [if_pos h1, if_neg (by omega : ¬(1 : Nat) = 3), saveRetryGo]
    unfold saveData
    dsimp only
    rw [if_neg (not_not_intro h2)]
    rfl

/-- A schedule where the first attempt conflicts (store at version 7 while
the writer loaded 0), the re-read sees version 7 and the second attempt
then succeeds. -/
def conflictThenOkWorlds : Nat → AttemptWorld := fun _ =>
  { atSave := some { writeVersion := 7, items := [], updatedAt := 0 },
    atReread := some { writeVersion := 7, items := [], updatedAt := 0 } }

/-- Witness for C7 (amended): on a concrete conflicting-then-quiet
schedule, a writer that loaded version 0 waits 100 ms, re-reads version 7,
re-applies its changes and saves them at version 8. -/
theorem C7_saveRetry_retry_then_raise_witness :
    saveRetry 0 conflictThenOkWorlds { writeVersion := 0, items := [baseItem], updatedAt := 3 } =
      (.saved { writeVersion := 8, items := [baseItem], updatedAt := 0 }, [100]) := by
  have h := (C7_saveRetry_retry_then_raise 0 conflictThenOkWorlds
    { writeVersion := 0, items := [baseItem], updatedAt := 3 } (by decide)).2 (by decide)
  simpa [conflictThenOkWorlds, storedVersion] using h

/-! ## Ratings: computeReputation and the rate action -/

/-- JS `Math.round`: round half toward positive infinity, `⌊x + 1/2⌋`. -/
def jsRound (x : Rat) : Int := ⌊x + 1 / 2⌋

/-- Source: `computeReputation(ratings)` in `items.js` — mean of the scores
times ten, `Math.round`ed, divided by ten, together with the count. -/
def computeReputation (ratings : List Rating) : Reputation :=
  if ratings.length = 0 then { average := 0, count := 0 }
  else
    let sum : Rat := ((ratings.map (fun r => r.score)).sum : Int)
    { average := (jsRound (sum / (ratings.length : Rat) * 10) : Rat) / 10,
      count := ratings.length }

/-- Source: `addContributor(item, agent)` in `_tasks.js` — append the agent
to the contributor list unless an entry with the same `btcAddress` exists;
a falsy `btcAddress` is ignored. -/
def addContributor (contributors : List Agent) (agent : Agent) : List Agent :=
  if agent.btcAddress = "" then contributors
  else if contributors.any (fun c => c.btcAddress = agent.btcAddress) then contributors
  else contributors ++
    [{ btcAddress := agent.btcAddress, displayName := agent.displayName,
       agentId := agent.agentId }]

/-- Source: `bumpLeaderActivity(item, agent)` in `items.js` — refresh the
leader's `lastActiveAt` when the acting agent is the leader. -/
def bumpLeaderActivity (item : Item) (agent : Agent) (now : Int) : Item :=
  match item.leader with
  | some l =>
    if l.btcAddress = agent.btcAddress then
      { item with leader := some { l with lastActiveAt := some now } }
    else item
  | none => item

/-- JS `Array.prototype.findIndex` over ratings by `btcAddress`, as used by
the rate action upsert. -/
def findIndexAddr (addr : String) : List Rating → Option Nat
  | [] => none
  | r :: rs =>
    if r.btcAddress = addr then some 0 else (findIndexAddr addr rs).map (· + 1)

/-- Validation errors of the rate action. -/
inductive RateError
  | invalidScore
  | reviewTooLong
deriving DecidableEq

/-- JS `String.prototype.toLowerCase`, modelled over the character list so
that it evaluates inside the kernel (ASCII case folding, as every string
the code lowercases is ASCII-relevant). -/
def toLowerStr (s : String) : String := String.mk (s.toList.map Char.toLower)

/-- JS `String.prototype.startsWith`. -/
def startsWithStr (s pre : String) : Bool := pre.toList.isPrefixOf s.toList

/-- JS `String.prototype.endsWith`. -/
def endsWithStr (s suf : String) : Bool :=
  suf.toList.reverse.isPrefixOf s.toList.reverse

/-- Drop the first `n` characters. -/
def dropStr (s : String) (n : Nat) : String := String.mk (s.toList.drop n)

/-- Drop the last `n` characters. -/
def dropRightStr (s : String) (n : Nat) : String :=
  String.mk (s.toList.take (s.toList.length - n))

/-- JS `String.prototype.trim`: strip whitespace from both ends, modelled
over the character list so that it evaluates inside the kernel. -/
def trimChars (s : String) : String :=
  String.mk (((s.toList.dropWhile Char.isWhitespace).reverse.dropWhile
    Char.isWhitespace).reverse)

/-- The upsert of the rate action: replace the first rating with the same
`btcAddress` (JS `findIndex` + assignment), else push. -/
def upsertRating (ratings : List Rating) (rating : Rating) : List Rating :=
  match findIndexAddr rating.btcAddress ratings with
  | some i => ratings.set i rating
  | none => ratings ++ [rating]

/-- Source: the `rate` branch of `_handlePut` in `items.js`. Scores outside
1..5 and reviews over 280 characters are rejected before any mutation;
otherwise the rating is upserted by `btcAddress`, the reputation
recomputed and the agent tracked as contributor. The integrality check on
the score is carried by the `Int` type. -/
def rateAction (item : Item) (agent : Agent) (score : Int) (review : String) (now : Int) :
    Except RateError Item :=
  if score < 1 ∨ 5 < score then .error .invalidScore
  else if 280 < (trimChars review).length then .error .reviewTooLong
  else
    let rating : Rating :=
      { agentId := agent.agentId, btcAddress := agent.btcAddress,
        displayName := agent.displayName, score := score,
        review := trimChars review, ratedAt := now }
    let ratings := upsertRating item.ratings rating
    .ok (bumpLeaderActivity
      { item with ratings := ratings, reputation := computeReputation ratings,
                  contributors := addContributor item.contributors agent,
                  updatedAt := now } agent now)

/-- When `findIndexAddr` hits, replacing at that index keeps the address
list, contains the new rating and keeps the length. -/
theorem findIndexAddr_set (addr : String) (r : Rating) (hr : r.btcAddress = addr) :
    ∀ (l : List Rating) (i : Nat), findIndexAddr addr l = some i →
      (l.set i r).map (fun x => x.btcAddress) = l.map (fun x => x.btcAddress) ∧
      r ∈ l.set i r ∧ (l.set i r).length = l.length := by
  intro l
  induction l with
  | nil => intro i h; simp [findIndexAddr] at h
  | cons x xs ih =>
    intro i h
    by_cases hx : x.btcAddress = addr
    · have : i = 0 := by simp [findIndexAddr, hx] at h; omega
      subst this
      simp [hr, hx]
    · simp only [findIndexAddr, hx, if_false] at h
      rcases Option.map_eq_some'.mp h with ⟨j, hj, rfl⟩
      have := ih j hj
      simp [List.set, this.1, this.2.1, this.2.2]

/-- When `findIndexAddr` misses, no rating carries the address. -/
theorem findIndexAddr_none (addr : String) :
    ∀ l : List Rating, findIndexAddr addr l = none →
      ∀ x ∈ l, x.btcAddress ≠ addr := by
  intro l
  induction l with
  | nil => intro _ x hx; simp at hx
  | cons y ys ih =>
    intro h x hx
    by_cases hy : y.btcAddress = addr
    · simp [findIndexAddr, hy] at h
    · simp only [findIndexAddr, hy, if_false, Option.map_eq_none'] at h
      rcases List.mem_cons.mp hx with rfl | hx2
      · exact hy
      · exact ih h x hx2

/-- When no rating carries the address, `findIndexAddr` misses. -/
theorem findIndexAddr_none_of (addr : String) :
    ∀ l : List Rating, (∀ x ∈ l, x.btcAddress ≠ addr) →
      findIndexAddr addr l = none := by
  intro l
  induction l with
  | nil => intro _; rfl
  | cons y ys ih =>
    intro h
    have hy : y.btcAddress ≠ addr := h y (by simp)
    simp only [findIndexAddr, hy, if_false, Option.map_eq_none']
    exact ih (fun x hx => h x (by simp [hx]))

/-- The upsert keeps address-distinctness, contains the new rating, keeps
the length when the account had already rated and appends otherwise. -/
theorem upsertRating_spec (l : List Rating) (r : Rating)
    (hnd : (l.map (fun x => x.btcAddress)).Nodup) :
    ((upsertRating l r).map (fun x => x.btcAddress)).Nodup ∧
    r ∈ upsertRating l r ∧
    ((∃ x ∈ l, x.btcAddress = r.btcAddress) → (upsertRating l r).length = l.length) ∧
    ((¬ ∃ x ∈ l, x.btcAddress = r.btcAddress) →
      (upsertRating l r).length = l.length + 1) := by
  unfold upsertRating
  cases hidx : findIndexAddr r.btcAddress l with
  | some i =>
    obtain ⟨hmap, hmem, hlen⟩ := findIndexAddr_set r.btcAddress r rfl l i hidx
    refine ⟨by rw [hmap]; exact hnd, hmem, fun _ => hlen, fun habs => ?_⟩
    exfalso
    have : findIndexAddr r.btcAddress l = none :=
      findIndexAddr_none_of r.btcAddress l (fun x hx hxa => habs ⟨x, hx, hxa⟩)
    rw [this] at hidx
    cases hidx
  | none =>
    have hnone := findIndexAddr_none r.btcAddress l hidx
    refine ⟨?_, by simp, fun hex => ?_, fun _ => by simp⟩
    · simp only [List.map_append, List.map_cons, List.map_nil]
      rw [List.nodup_append]
      refine ⟨hnd, by simp, ?_⟩
      intro a ha hb
      simp only [List.mem_map] at ha
      obtain ⟨x, hx, rfl⟩ := ha
      simp only [List.mem_singleton] at hb
      exact hnone x hx (by rw [hb])
    · obtain ⟨x, hx, hxa⟩ := hex
      exact absurd hxa (hnone x hx)

/-- `bumpLeaderActivity` only touches the leader field. -/
theorem bumpLeaderActivity_preserves (item : Item) (agent : Agent) (now : Int) :
    (bumpLeaderActivity item agent now).ratings = item.ratings ∧
    (bumpLeaderActivity item agent now).reputation = item.reputation := by
  unfold bumpLeaderActivity
  cases item.leader with
  | none => exact ⟨rfl, rfl⟩
  | some l => dsimp only; split <;> exact ⟨rfl, rfl⟩

/-- The spec-side rounding: a rational rounded to one decimal place. -/
def specRound1 (x : Rat) : Rat := (jsRound (10 * x) : Rat) / 10

/-- C6: a valid rate action (integer score 1..5) upserts by account: given
the ratings list has pairwise-distinct account addresses, it still does
afterwards; rating again keeps the length while a first rating appends; the
new score is present; and the recomputed reputation has `count` equal to
the number of distinct rating accounts and `average` equal to the mean of
the scores rounded to one decimal. -/
theorem C6_rate_upsert (item : Item) (agent : Agent) (score : Int) (review : String)
    (now : Int) (hs1 : 1 ≤ score) (hs5 : score ≤ 5)
    (hrev : (trimChars review).length ≤ 280)
    (hnd : (item.ratings.map (fun r => r.btcAddress)).Nodup) :
    ∃ item2, rateAction item agent score review now = .ok item2 ∧
      (item2.ratings.map (fun r => r.btcAddress)).Nodup ∧
      ((∃ r ∈ item.ratings, r.btcAddress = agent.btcAddress) →
        item2.ratings.length = item.ratings.length) ∧
      ((¬ ∃ r ∈ item.ratings, r.btcAddress = agent.btcAddress) →
        item2.ratings.length = item.ratings.length + 1) ∧
      (∃ r ∈ item2.ratings, r.btcAddress = agent.btcAddress ∧ r.score = score) ∧
      item2.reputation.count = ((item2.ratings.map (fun r => r.btcAddress)).dedup).length ∧
      item2.reputation.average =
        specRound1 (((item2.ratings.map (fun r => r.score)).sum : Int) /
          (item2.ratings.length : Rat)) := by
  unfold rateAction
  rw [if_neg (by omega), if_neg (by omega)]
  have hspec := upsertRating_spec item.ratings
    { agentId := agent.agentId, btcAddress := agent.btcAddress,
      displayName := agent.displayName, score := score,
      review := trimChars review, ratedAt := now } hnd
  set R := upsertRating item.ratings
    { agentId := agent.agentId, btcAddress := agent.btcAddress,
      displayName := agent.displayName, score := score,
      review := trimChars review, ratedAt := now } with hR
  have hbl := bumpLeaderActivity_preserves
    { item with
      ratings := R, reputation := computeReputation R,
      contributors := addContributor item.contributors agent, updatedAt := now }
    agent now
  have hlen0 : R.length ≠ 0 := by
    intro habs
    have := hspec.2.1
    rw [List.length_eq_zero.mp habs] at this
    simp at this
  refine ⟨_, rfl, ?_, ?_, ?_, ?_, ?_, ?_⟩
  · rw [hbl.1]; exact hspec.1
  · intro hex; rw [hbl.1]; exact hspec.2.2.1 hex
  · intro hex; rw [hbl.1]; exact hspec.2.2.2 hex
  · rw [hbl.1]; exact ⟨_, hspec.2.1, rfl, rfl⟩
  · rw [hbl.1, hbl.2]
    show (computeReputation R).count = _
    rw [List.dedup_eq_self.mpr hspec.1, List.length_map]
    unfold computeReputation
    rw [if_neg hlen0]
  · rw [hbl.1, hbl.2]
    show (computeReputation R).average = _
    unfold computeReputation specRound1
    rw [if_neg hlen0]
    dsimp only
    rw [mul_comm]

/-- An existing 2-star rating by account bc1qq, for the C6 witness. -/
def rating2A : Rating :=
  { agentId := "", btcAddress := "bc1qq", displayName := "A", score := 2,
    review := "", ratedAt := 0 }

/-- The acting agent of the C6 witness. -/
def agentA : Agent := { btcAddress := "bc1qq", displayName := "A", agentId := "" }

/-- An item already rated once by bc1qq, for the C6 witness. -/
def ratedItem : Item := { baseItem with ratings := [rating2A] }

/-- Witness for C6: a second rating (5) by the same account replaces the
first one: the list stays at one entry, the new score is present, the count
is 1 and the average becomes 5. -/
theorem C6_rate_upsert_witness :
    ∃ item2, rateAction ratedItem agentA 5 "" 9 = .ok item2 ∧
      (item2.ratings.map (fun r => r.btcAddress)).Nodup ∧
      item2.ratings.length = 1 ∧
      (∃ r ∈ item2.ratings, r.btcAddress = "bc1qq" ∧ r.score = 5) ∧
      item2.reputation.count = 1 ∧ item2.reputation.average = 5 := by
  obtain ⟨item2, hok, hnodup, hsame, _, hscore, hcount, havg⟩ :=
    C6_rate_upsert ratedItem agentA 5 "" 9
      (by decide) (by decide) (by decide) (by decide)
  have hin : ∃ r ∈ ratedItem.ratings, r.btcAddress = agentA.btcAddress :=
    ⟨rating2A, by simp [ratedItem], rfl⟩
  have hlen : item2.ratings.length = 1 := by
    rw [hsame hin]; rfl
  refine ⟨item2, hok, hnodup, hlen, by simpa [agentA] using hscore, ?_, ?_⟩
  · rw [hcount, List.dedup_eq_self.mpr hnodup, List.length_map, hlen]
  · rw [havg]
    obtain ⟨r, hr, hraddr, hrscore⟩ := by simpa [agentA] using hscore
    have hone : item2.ratings = [r] := by
      cases hratings : item2.ratings with
      | nil => rw [hratings] at hr; simp at hr
      | cons a as =>
        rw [hratings] at hlen hr
        simp only [List.length_cons] at hlen
        have : as = [] := List.length_eq_zero.mp (by omega)
        subst this
        simp only [List.mem_singleton] at hr
        rw [hr]
    rw [hone]
    simp only [List.map_cons, List.map_nil, List.sum_cons, List.sum_nil,
      List.length_cons, List.length_nil, hrscore]
    norm_num [specRound1, jsRound]

/-! ## Leadership takeover: the claim_leadership action -/

/-- Outcome of the `claim_leadership` branch; `rejected` carries the whole
number of elapsed days reported in the error message
(`Math.floor(daysSinceActive)`). -/
inductive ClaimLeadershipOutcome
  | noLeader
  | alreadyLeader
  | rejected (inactiveDays : Int)
  | takenOver
deriving DecidableEq

/-- Milliseconds per day, `1000 * 60 * 60 * 24`. -/
def msPerDay : Int := 1000 * 60 * 60 * 24

/-- Source: the `claim_leadership` branch of `_handlePut` in `items.js`.
`daysSinceActive` is the real number `(now - lastActive) / 86400000`; the
comparison `daysSinceActive < 30` is expressed equivalently on the
millisecond scale and `Math.floor(daysSinceActive)` is `Int.fdiv`. A
missing `lastActiveAt` reads as epoch 0. The returned item is unchanged on
every non-takeover path. -/
def claimLeadership (item : Item) (agent : Agent) (now : Int) :
    ClaimLeadershipOutcome × Item :=
  match item.leader with
  | none => (.noLeader, item)
  | some leader =>
    if leader.btcAddress = agent.btcAddress then (.alreadyLeader, item)
    else
      let lastActive := leader.lastActiveAt.getD 0
      if now - lastActive < 30 * msPerDay then
        (.rejected (Int.fdiv (now - lastActive) msPerDay), item)
      else
        (.takenOver,
          { item with
            leader := some
              { btcAddress := agent.btcAddress, displayName := agent.displayName,
                agentId := agent.agentId,
                profileUrl := "https://aibtc.com/agents/" ++ agent.btcAddress,
                assignedAt := now, lastActiveAt := some now },
            contributors := addContributor item.contributors agent,
            updatedAt := now })

/-- C9: a takeover attempt against a leader active fewer than 30 days ago
is rejected with the whole number of elapsed days and leaves the item (in
particular its leader) unchanged; at 30 or more days of inactivity it
succeeds, reassigning the leader to the requesting agent with `assignedAt`
and `lastActiveAt` set to the takeover time. -/
theorem C9_claim_leadership (item : Item) (agent : Agent) (now : Int) (leader : Leader)
    (hl : item.leader = some leader) (hne : leader.btcAddress ≠ agent.btcAddress) :
    (now - leader.lastActiveAt.getD 0 < 30 * msPerDay →
      claimLeadership item agent now =
        (.rejected (Int.fdiv (now - leader.lastActiveAt.getD 0) msPerDay), item)) ∧
    (30 * msPerDay ≤ now - leader.lastActiveAt.getD 0 →
      (claimLeadership item agent now).1 = .takenOver ∧
      (claimLeadership item agent now).2.leader = some
        { btcAddress := agent.btcAddress, displayName := agent.displayName,
          agentId := agent.agentId,
          profileUrl := "https://aibtc.com/agents/" ++ agent.btcAddress,
          assignedAt := now, lastActiveAt := some now }) := by
  constructor
  · intro hfew
    unfold claimLeadership
    rw [hl]
    dsimp only
    rw [if_neg hne, if_pos hfew]
  · intro hmany
    unfold claimLeadership
    rw [hl]
    dsimp only
    rw [if_neg hne, if_neg (by omega)]
    exact ⟨rfl, rfl⟩

/-- A leader last active at epoch 0, for the C9 witness. -/
def idleLeader : Leader :=
  { btcAddress := "bc1qleader", displayName := "L", agentId := "",
    profileUrl := "", assignedAt := 0, lastActiveAt := some 0 }

/-- An item led by `idleLeader`, for the C9 witness. -/
def ledItem : Item := { baseItem with leader := some idleLeader }

/-- Witness for C9: attempted 10 days after the leader's last activity the
takeover is rejected reporting 10 days and the item is unchanged; attempted
at 31 days it succeeds and reassigns the leader to the requester. -/
theorem C9_claim_leadership_witness :
    claimLeadership ledItem agentA (10 * msPerDay) =
      (.rejected 10, ledItem) ∧
    (claimLeadership ledItem agentA (31 * msPerDay)).1 = .takenOver ∧
    (claimLeadership ledItem agentA (31 * msPerDay)).2.leader = some
      { btcAddress := agentA.btcAddress, displayName := agentA.displayName,
        agentId := agentA.agentId,
        profileUrl := "https://aibtc.com/agents/" ++ agentA.btcAddress,
        assignedAt := 31 * msPerDay, lastActiveAt := some (31 * msPerDay) } := by
  have h10 := (C9_claim_leadership ledItem agentA (10 * msPerDay) idleLeader rfl
    (by decide)).1 (by decide)
  have h31 := (C9_claim_leadership ledItem agentA (31 * msPerDay) idleLeader rfl
    (by decide)).2 (by decide)
  refine ⟨?_, h31.1, h31.2⟩
  rw [h10]
  norm_num [idleLeader, msPerDay]
  decide

/-! ## The reorder endpoint -/

/-- A JS `Map` from item id to item: an association list in key-insertion
order. -/
abbrev JsMap := List (String × Item)

/-- JS `Map` insertion: overwrite in place if the key exists, else append.
`new Map(entries)` inserts the entries in order with these semantics. -/
def jsMapInsert (m : JsMap) (k : String) (v : Item) : JsMap :=
  if m.any (fun p => p.1 = k) then
    m.map (fun p => if p.1 = k then (k, v) else p)
  else m ++ [(k, v)]

/-- Source: `new Map(data.items.map(i => [i.id, i]))`. -/
def jsMapOfItems (items : List Item) : JsMap :=
  items.foldl (fun m i => jsMapInsert m i.id i) []

/-- JS `map.get`. -/
def jsMapGet (m : JsMap) (k : String) : Option Item :=
  (m.find? (fun p => p.1 = k)).map (fun p => p.2)

/-- JS `map.delete`. -/
def jsMapDelete (m : JsMap) (k : String) : JsMap :=
  m.filter (fun p => ¬ p.1 = k)

/-- Source: the `for (const id of body.orderedIds)` loop of the reorder
handler — ids found in the map are pushed to `reordered` and deleted from
the map; the final map values are appended afterwards. -/
def reorderGo : JsMap → List String → List Item × JsMap
  | m, [] => ([], m)
  | m, idv :: rest =>
    match jsMapGet m idv with
    | some it =>
      let next := reorderGo (jsMapDelete m idv) rest
      (it :: next.1, next.2)
    | none => reorderGo m rest

/-- Source: the reorder `onRequestPost` body — `data.items` becomes the
selected items followed by the remaining map values. -/
def reorderItems (items : List Item) (orderedIds : List String) : List Item :=
  let m := jsMapOfItems items
  let r := reorderGo m orderedIds
  r.1 ++ r.2.map (fun p => p.2)

/-- Spec-side description of the selection pass: for each id in order, the
first item with that id, consumed once so that repeated ids are ignored. -/
def selectByIds : List Item → List String → List Item
  | _, [] => []
  | items, idv :: rest =>
    match items.find? (fun it => it.id = idv) with
    | some it => it :: selectByIds (items.filter (fun x => ¬ x.id = idv)) rest
    | none => selectByIds items rest

/-- `jsMapGet` on an id-keyed map is `find?` by id. -/
theorem jsMapGet_map (items : List Item) (k : String) :
    jsMapGet (items.map (fun it => (it.id, it))) k =
      items.find? (fun it => it.id = k) := by
  induction items with
  | nil => rfl
  | cons x xs ih =>
    by_cases hx : x.id = k
    · simp [jsMapGet, List.find?_cons, hx]
    · simp only [List.map_cons]
      rw [List.find?_cons_of_neg _ (by simpa using hx),
        show jsMapGet ((x.id, x) :: xs.map (fun it => (it.id, it))) k =
          jsMapGet (xs.map (fun it => (it.id, it))) k from ?_, ih]
      unfold jsMapGet
      rw [List.find?_cons_of_neg _ (by simpa using hx)]

/-- `jsMapDelete` on an id-keyed map is `filter` by id. -/
theorem jsMapDelete_map (items : List Item) (k : String) :
    jsMapDelete (items.map (fun it => (it.id, it))) k =
      (items.filter (fun it => ¬ it.id = k)).map (fun it => (it.id, it)) := by
  induction items with
  | nil => rfl
  | cons x xs ih =>
    by_cases hx : x.id = k
    · simp [jsMapDelete, List.filter_cons, hx] at ih ⊢
      exact ih
    · simp [jsMapDelete, List.filter_cons, hx] at ih ⊢
      exact ih

/-- Building the JS map over items with distinct ids just pairs each item
with its id. -/
theorem jsMapOfItems_eq (items : List Item)
    (hnd : (items.map (fun it => it.id)).Nodup) :
    jsMapOfItems items = items.map (fun it => (it.id, it)) := by
  have main : ∀ (l : List Item) (acc : JsMap),
      (l.map (fun it => it.id)).Nodup →
      (∀ p ∈ acc, ∀ it ∈ l, ¬ p.1 = it.id) →
      l.foldl (fun m i => jsMapInsert m i.id i) acc =
        acc ++ l.map (fun it => (it.id, it)) := by
    intro l
    induction l with
    | nil => intro acc _ _; simp
    | cons x xs ih =>
      intro acc hnd hdisj
      have hnotin : acc.any (fun p => p.1 = x.id) = false := by
        rw [List.any_eq_false]
        intro p hp
        simpa using hdisj p hp x (by simp)
      simp only [List.foldl_cons]
      rw [show jsMapInsert acc x.id x = acc ++ [(x.id, x)] from by
        unfold jsMapInsert; rw [hnotin]; simp]
      rw [ih (acc ++ [(x.id, x)]) (by simpa using hnd.of_cons) ?_]
      · simp
      · intro p hp it hit
        rcases List.mem_append.mp hp with hp | hp
        · exact hdisj p hp it (by simp [hit])
        · simp only [List.mem_singleton] at hp
          subst hp
          simp only [List.map_cons, List.nodup_cons, List.mem_map] at hnd
          intro habs
          exact hnd.1 ⟨it, hit, by simpa using habs.symm⟩
  simpa using main items [] hnd

/-- `find?` by id decomposes the list at the first hit. -/
theorem find?_id_decomp (idv : String) :
    ∀ (items : List Item) (it0 : Item),
      items.find? (fun it => it.id = idv) = some it0 →
      ∃ l1 l2, items = l1 ++ it0 :: l2 ∧ (∀ x ∈ l1, ¬ x.id = idv) ∧ it0.id = idv := by
  intro items
  induction items with
  | nil => intro it0 h; simp at h
  | cons x xs ih =>
    intro it0 h
    by_cases hx : x.id = idv
    · rw [List.find?_cons_of_pos _ (by simpa using hx)] at h
      cases h
      exact ⟨[], xs, rfl, by simp, hx⟩
    · rw [List.find?_cons_of_neg _ (by simpa using hx)] at h
      obtain ⟨l1, l2, heq, hl1, hit0⟩ := ih it0 h
      exact ⟨x :: l1, l2, by simp [heq], by
        intro y hy
        rcases List.mem_cons.mp hy with rfl | hy
        · exact hx
        · exact hl1 y hy, hit0⟩

/-- The selection plus the unselected remainder permute the original items
(when ids are distinct). -/
theorem select_filter_perm (ids : List String) :
    ∀ items : List Item, (items.map (fun it => it.id)).Nodup →
      (selectByIds items ids ++
        items.filter (fun it => ¬ it.id ∈ ids)).Perm items := by
  induction ids with
  | nil =>
    intro items _
    simp [selectByIds]
  | cons idv rest ih =>
    intro items hnd
    cases hfind : items.find? (fun it => it.id = idv) with
    | none =>
      have hnone : ∀ x ∈ items, ¬ x.id = idv := by
        intro x hx
        have := List.find?_eq_none.mp hfind x hx
        simpa using this
      rw [selectByIds, hfind]
      have hfe : items.filter (fun it => ¬ it.id ∈ idv :: rest) =
          items.filter (fun it => ¬ it.id ∈ rest) := by
        apply List.filter_congr
        intro x hx
        simp [List.mem_cons, hnone x hx]
      rw [hfe]
      exact ih items hnd
    | some it0 =>
      obtain ⟨l1, l2, heq, hl1, hit0⟩ := find?_id_decomp idv items it0 hfind
      have hl2 : ∀ x ∈ l2, ¬ x.id = idv := by
        subst heq
        intro x hx habs
        simp only [List.map_append, List.map_cons] at hnd
        have := (List.nodup_append.mp hnd).2.1
        rw [List.nodup_cons] at this
        exact this.1 (by
          rw [← hit0] at habs
          exact List.mem_map.mpr ⟨x, hx, habs⟩)
      have hfilter : items.filter (fun x => ¬ x.id = idv) = l1 ++ l2 := by
        subst heq
        rw [List.filter_append, List.filter_cons]
        simp only [hit0, not_true, decide_False]
        rw [List.filter_eq_self.mpr (by intro a ha; simpa using hl1 a ha),
          List.filter_eq_self.mpr (by intro a ha; simpa using hl2 a ha)]
        simp
      have hnd2 : ((items.filter (fun x => ¬ x.id = idv)).map
          (fun it => it.id)).Nodup :=
        List.Nodup.sublist
          (List.Sublist.map (fun it => it.id) (List.filter_sublist items)) hnd
      rw [selectByIds, hfind]
      have hfe : items.filter (fun it => ¬ it.id ∈ idv :: rest) =
          (items.filter (fun x => ¬ x.id = idv)).filter
            (fun it => ¬ it.id ∈ rest) := by
        rw [List.filter_filter]
        apply List.filter_congr
        intro x _
        by_cases h1 : x.id = idv <;> by_cases h2 : x.id ∈ rest <;>
          simp [h1, h2, List.mem_cons]
      rw [hfe, List.cons_append]
      refine List.Perm.trans
        ((ih (items.filter (fun x => ¬ x.id = idv)) hnd2).cons it0) ?_
      rw [hfilter, heq]
      exact List.perm_middle.symm

/-- The reorder loop over an id-keyed map computes the selection and leaves
exactly the unselected items in the map, in order. -/
theorem reorderGo_spec (ids : List String) :
    ∀ items : List Item, (items.map (fun it => it.id)).Nodup →
      reorderGo (items.map (fun it => (it.id, it))) ids =
        (selectByIds items ids,
         (items.filter (fun it => ¬ it.id ∈ ids)).map (fun it => (it.id, it))) := by
  induction ids with
  | nil =>
    intro items _
    simp [reorderGo, selectByIds]
  | cons idv rest ih =>
    intro items hnd
    rw [reorderGo, jsMapGet_map]
    cases hfind : items.find? (fun it => it.id = idv) with
    | none =>
      have hnone : ∀ x ∈ items, ¬ x.id = idv := by
        intro x hx
        have := List.find?_eq_none.mp hfind x hx
        simpa using this
      have hfe : items.filter (fun it => ¬ it.id ∈ idv :: rest) =
          items.filter (fun it => ¬ it.id ∈ rest) := by
        apply List.filter_congr
        intro x hx
        simp [List.mem_cons, hnone x hx]
      rw [selectByIds, hfind, hfe]
      exact ih items hnd
    | some it0 =>
      have hnd2 : ((items.filter (fun x => ¬ x.id = idv)).map
          (fun it => it.id)).Nodup :=
        List.Nodup.sublist
          (List.Sublist.map (fun it => it.id) (List.filter_sublist items)) hnd
      have hfe : items.filter (fun it => ¬ it.id ∈ idv :: rest) =
          (items.filter (fun x => ¬ x.id = idv)).filter
            (fun it => ¬ it.id ∈ rest) := by
        rw [List.filter_filter]
        apply List.filter_congr
        intro x _
        by_cases h1 : x.id = idv <;> by_cases h2 : x.id ∈ rest <;>
          simp [h1, h2, List.mem_cons]
      rw [selectByIds, hfind, hfe, jsMapDelete_map,
        ih (items.filter (fun x => ¬ x.id = idv)) hnd2]

/-- C10: with distinct item ids, the reorder endpoint produces exactly the
items selected by `orderedIds` (first occurrences of ids present in the
registry, in `orderedIds` order) followed by the remaining items in their
original relative order; the result is a permutation of the original items
and the reported count (its length) equals the original count. -/
theorem C10_reorder_perm (items : List Item) (orderedIds : List String)
    (hnd : (items.map (fun it => it.id)).Nodup) :
    reorderItems items orderedIds =
      selectByIds items orderedIds ++
        items.filter (fun it => ¬ it.id ∈ orderedIds) ∧
    (reorderItems items orderedIds).Perm items ∧
    (reorderItems items orderedIds).length = items.length := by
  have hgo := reorderGo_spec orderedIds items hnd
  have heq : reorderItems items orderedIds = selectByIds items orderedIds ++
      items.filter (fun it => ¬ it.id ∈ orderedIds) := by
    unfold reorderItems
    rw [jsMapOfItems_eq items hnd]
    dsimp only
    rw [hgo]
    dsimp only
    rw [List.map_map,
      show ((fun p : String × Item => p.2) ∘ fun it : Item => (it.id, it)) = id from rfl,
      List.map_id]
  refine ⟨heq, ?_, ?_⟩
  · rw [heq]
    exact select_filter_perm orderedIds items hnd
  · rw [heq]
    exact (select_filter_perm orderedIds items hnd).length_eq

/-- Items with ids a, b, c for the C10 witness. -/
def itemIdA : Item := { baseItem with id := "a" }

/-- See `itemIdA`. -/
def itemIdB : Item := { baseItem with id := "b" }

/-- See `itemIdA`. -/
def itemIdC : Item := { baseItem with id := "c" }

/-- Witness for C10: ordering [c, x, a, c] over items [a, b, c] yields
[c, a, b] — the unknown id x and the repeated c are ignored, b keeps its
relative position at the end, and the count stays 3. -/
theorem C10_reorder_perm_witness :
    reorderItems [itemIdA, itemIdB, itemIdC] ["c", "x", "a", "c"] =
      [itemIdC, itemIdA, itemIdB] ∧
    (reorderItems [itemIdA, itemIdB, itemIdC] ["c", "x", "a", "c"]).length = 3 := by
  have h := C10_reorder_perm [itemIdA, itemIdB, itemIdC] ["c", "x", "a", "c"]
    (by decide)
  refine ⟨?_, by rw [h.2.2]; rfl⟩
  rw [h.1]
  decide

/-! ## Mention matching: getMatchTerms and matchMention -/

/-- Substring search helper: does the needle occur as a prefix of some
suffix of the haystack? -/
def containsAux (needle : List Char) : List Char → Bool
  | [] => needle.isEmpty
  | c :: cs => needle.isPrefixOf (c :: cs) || containsAux needle cs

/-- JS `String.prototype.includes`: substring containment. -/
def strContains (s sub : String) : Bool :=
  containsAux sub.toList s.toList

/-- Split a character list at every character satisfying `p` (the split
regex of the source consumes surrounding whitespace, which the source then
trims from every part anyway, so splitting at the delimiter characters and
trimming is equivalent). -/
def splitOnP (p : Char → Bool) : List Char → List (List Char)
  | [] => [[]]
  | c :: cs =>
    if p c then [] :: splitOnP p cs
    else
      match splitOnP p cs with
      | [] => [[c]]
      | h :: t => (c :: h) :: t

/-- The title-part delimiters em-dash, en-dash, pipe of `getMatchTerms`. -/
def isTitleDelim (c : Char) : Bool := c = '—' ∨ c = '–' ∨ c = '|'

/-- One step of JS `replace(/[^a-z0-9]+/g, '-')`: every character outside
`[a-z0-9]` becomes a dash (runs are collapsed by `squeezeDashes`). -/
def slugMapChar (c : Char) : Char :=
  if ('a' ≤ c ∧ c ≤ 'z') ∨ ('0' ≤ c ∧ c ≤ '9') then c else '-'

/-- Collapse adjacent dashes, completing the `[^a-z0-9]+ → '-'` run
replacement. -/
def squeezeDashes : List Char → List Char
  | [] => []
  | c :: cs =>
    match squeezeDashes cs with
    | [] => [c]
    | d :: ds => if c = '-' ∧ d = '-' then d :: ds else c :: d :: ds

/-- JS `replace(/^-|-$/g, '')`: drop one leading and one trailing dash. -/
def stripEdgeDashes (cs : List Char) : List Char :=
  let cs1 := match cs with
    | '-' :: t => t
    | l => l
  if cs1.getLast? = some '-' then cs1.dropLast else cs1

/-- The slugification of `getMatchTerms` step 3. -/
def slugify (s : String) : String :=
  String.mk (stripEdgeDashes (squeezeDashes (s.toList.map slugMapChar)))

/-- JS `replace(/^https?:\/\/(www\.)?github\.com\//, '')`. -/
def stripGithubPrefix (s : String) : String :=
  if startsWithStr s "https://www.github.com/" then dropStr s 23
  else if startsWithStr s "https://github.com/" then dropStr s 19
  else if startsWithStr s "http://www.github.com/" then dropStr s 22
  else if startsWithStr s "http://github.com/" then dropStr s 18
  else s

/-- JS `replace(/\/$/, '')`. -/
def stripTrailingSlash (s : String) : String :=
  if endsWithStr s "/" then dropRightStr s 1 else s

/-- The lowercased GitHub path of an item (`ghPath` in `getMatchTerms`);
`""` plays the role of the falsy null. -/
def ghPathOf (item : Item) : String :=
  if item.githubUrl = "" then ""
  else toLowerStr (stripTrailingSlash (stripGithubPrefix item.githubUrl))

/-- JS `split('/').pop()`: the last slash-separated segment. -/
def lastSegment (s : String) : String :=
  String.mk ((splitOnP (fun c => c = '/') s.toList).getLastD [])

/-- A parsed http(s) URL: the lowercased hostname and the pathname. Models
the WHATWG `new URL` collaborator for plain http(s) URLs without
credentials or ports; other inputs fail (`none`), corresponding to the
source's try/catch. -/
structure ParsedUrl where
  host : String
  path : String
deriving DecidableEq

/-- See `ParsedUrl`. -/
def parseUrl (s : String) : Option ParsedUrl :=
  let rest := if startsWithStr s "https://" then some (dropStr s 8)
              else if startsWithStr s "http://" then some (dropStr s 7)
              else none
  match rest with
  | none => none
  | some r =>
    let cs := r.toList
    let host := cs.takeWhile (fun c => ¬ (c = '/' ∨ c = '?' ∨ c = '#'))
    let after := cs.dropWhile (fun c => ¬ (c = '/' ∨ c = '?' ∨ c = '#'))
    if host.isEmpty then none
    else
      let path := after.takeWhile (fun c => ¬ (c = '?' ∨ c = '#'))
      some { host := toLowerStr (String.mk host),
             path := if path.isEmpty then "/" else String.mk path }

/-- One match term: its text and its provenance type
(title/slug/url/site/alias). -/
structure MatchTerm where
  text : String
  type : String
deriving DecidableEq

/-- Step 1 of `getMatchTerms`: the full lower-cased title, when truthy. -/
def titleTerms (item : Item) : List MatchTerm :=
  if toLowerStr item.title = "" then []
  else [{ text := toLowerStr item.title, type := "title" }]

/-- The trimmed title parts longer than three characters
(`titleParts` in the source). -/
def titlePartsOf (item : Item) : List String :=
  ((splitOnP isTitleDelim (toLowerStr item.title).toList).map
    (fun cs => trimChars (String.mk cs))).filter (fun p => 3 < p.length)

/-- Step 2: title parts distinct from the full title. -/
def titlePartTerms (item : Item) : List MatchTerm :=
  ((titlePartsOf item).filter (fun p => ¬ p = toLowerStr item.title)).map
    (fun p => { text := p, type := "title" })

/-- Step 3: slugified forms of the full title and each part, when they
differ from their source and have more than three characters. -/
def slugTerms (item : Item) : List MatchTerm :=
  (toLowerStr item.title :: titlePartsOf item).foldr
    (fun part acc =>
      let slug := slugify part
      if 3 < slug.length ∧ ¬ slug = part then
        { text := slug, type := "slug" } :: acc
      else acc) []

/-- The bare repository name with dashes replaced by spaces (`repoSpaced`
in the source). -/
def repoSpacedOf (item : Item) : String :=
  String.mk ((lastSegment (ghPathOf item)).toList.map
    (fun c => if c = '-' then ' ' else c))

/-- Step 4: the full GitHub URL, its path, and (only when at least eight
characters long) the bare repository name and its space-separated
variant. -/
def ghTerms (item : Item) : List MatchTerm :=
  if ghPathOf item = "" then []
  else
    { text := toLowerStr item.githubUrl, type := "url" } ::
    { text := ghPathOf item, type := "url" } ::
    (if ¬ lastSegment (ghPathOf item) = "" ∧ 8 ≤ (lastSegment (ghPathOf item)).length then
      { text := lastSegment (ghPathOf item), type := "url" } ::
      (if ¬ repoSpacedOf item = lastSegment (ghPathOf item) then
        [{ text := repoSpacedOf item, type := "url" }]
      else [])
    else [])

/-- The generic hosts excluded from homepage-hostname terms. -/
def GENERIC_HOSTS : List String := ["aibtc.com", "github.com", "stacks.co", "bitcoin.org"]

/-- Step 5: the homepage hostname, unless generic or five characters or
shorter; a homepage that does not parse yields nothing (the catch). -/
def siteTerms (item : Item) : List MatchTerm :=
  match item.githubData with
  | none => []
  | some gd =>
    if gd.homepage = "" then []
    else
      match parseUrl gd.homepage with
      | none => []
      | some u =>
        if ¬ u.host ∈ GENERIC_HOSTS ∧ 5 < u.host.length then
          [{ text := u.host, type := "site" }]
        else []

/-- Step 6: curated search terms longer than two characters. -/
def aliasTerms (item : Item) : List MatchTerm :=
  (item.searchTerms.filter (fun t => 2 < t.length)).map
    (fun t => { text := t, type := "alias" })

/-- The final dedup-by-text filter of `getMatchTerms` (first occurrence
wins). -/
def dedupByTextGo (seen : List String) : List MatchTerm → List MatchTerm
  | [] => []
  | t :: ts =>
    if t.text ∈ seen then dedupByTextGo seen ts
    else t :: dedupByTextGo (t.text :: seen) ts

/-- See `dedupByTextGo`. -/
def dedupByText (l : List MatchTerm) : List MatchTerm := dedupByTextGo [] l

/-- Source: `getMatchTerms(item)` in `_tasks.js` — the six term sources in
order, deduplicated by text. -/
def getMatchTerms (item : Item) : List MatchTerm :=
  dedupByText (titleTerms item ++ titlePartTerms item ++ slugTerms item ++
    ghTerms item ++ siteTerms item ++ aliasTerms item)

/-- Source: `matchMention(preview, item)` in `_tasks.js` — the provenance
type of the first term contained in the (lowercased) preview, else null. -/
def matchMention (preview : String) (item : Item) : Option String :=
  ((getMatchTerms item).find? (fun t => strContains preview t.text)).map
    (fun t => t.type)

/-- Deduplication only drops elements. -/
theorem dedupByTextGo_subset (l : List MatchTerm) :
    ∀ (seen : List String) (t : MatchTerm), t ∈ dedupByTextGo seen l → t ∈ l := by
  induction l with
  | nil => intro seen t h; simp [dedupByTextGo] at h
  | cons x xs ih =>
    intro seen t h
    by_cases hx : x.text ∈ seen
    · simp only [dedupByTextGo, if_pos hx] at h
      exact List.mem_cons_of_mem x (ih seen t h)
    · simp only [dedupByTextGo, if_neg hx] at h
      rcases List.mem_cons.mp h with rfl | h2
      · exact List.mem_cons_self t xs
      · exact List.mem_cons_of_mem x (ih (x.text :: seen) t h2)

/-- Deduplication keeps an unseen head in place. -/
theorem dedupByTextGo_cons (seen : List String) (t : MatchTerm) (ts : List MatchTerm)
    (h : ¬ t.text ∈ seen) :
    dedupByTextGo seen (t :: ts) = t :: dedupByTextGo (t.text :: seen) ts := by
  simp [dedupByTextGo, h]

/-- Every slug-step term has type `slug`. -/
theorem slugTerms_type (parts : List String) (t : MatchTerm)
    (h : t ∈ parts.foldr
      (fun part acc =>
        if 3 < (slugify part).length ∧ ¬ slugify part = part then
          ({ text := slugify part, type := "slug" } : MatchTerm) :: acc
        else acc) []) :
    t.type = "slug" := by
  induction parts with
  | nil => simp at h
  | cons p ps ih =>
    simp only [List.foldr_cons] at h
    split at h
    · rcases List.mem_cons.mp h with rfl | h2
      · rfl
      · exact ih h2
    · exact ih h

/-- C5: (a) when the title is non-empty, a message text containing the
exact lower-cased title always matches, via the title term (which sits
first in the term list); (b) when the bare repository name — the last path
segment of the GitHub URL — is shorter than eight characters, every
generated url-typed term is the full URL or the owner/repo path: no
bare-repository-name term is generated. -/
theorem C5_match_terms (item : Item) (preview : String) :
    (toLowerStr item.title ≠ "" → strContains preview (toLowerStr item.title) = true →
      matchMention preview item = some "title") ∧
    ((lastSegment (ghPathOf item)).length < 8 →
      ∀ t ∈ getMatchTerms item, t.type = "url" →
        t.text = toLowerStr item.githubUrl ∨ t.text = ghPathOf item) := by
  constructor
  · intro hne hcont
    unfold matchMention getMatchTerms dedupByText titleTerms
    rw [if_neg hne, List.singleton_append]
    simp only [List.cons_append]
    rw [dedupByTextGo_cons [] _ _ (by simp),
      List.find?_cons_of_pos _ (by simpa using hcont)]
    rfl
  · intro hshort t ht hurl
    have hmem := dedupByTextGo_subset _ [] t ht
    simp only [List.mem_append] at hmem
    rcases hmem with ((((h1 | h2) | h3) | h4) | h5) | h6
    · unfold titleTerms at h1
      split at h1
      · simp at h1
      · simp only [List.mem_singleton] at h1
        rw [h1] at hurl
        simp at hurl
    · exfalso
      unfold titlePartTerms at h2
      simp only [List.mem_map] at h2
      obtain ⟨p, _, rfl⟩ := h2
      simp at hurl
    · exfalso
      unfold slugTerms at h3
      have := slugTerms_type (toLowerStr item.title :: titlePartsOf item) t h3
      rw [this] at hurl
      simp at hurl
    · unfold ghTerms at h4
      split at h4
      · simp at h4
      · rcases List.mem_cons.mp h4 with rfl | h4b
        · exact Or.inl rfl
        · rcases List.mem_cons.mp h4b with rfl | h4c
          · exact Or.inr rfl
          · exfalso
            rw [if_neg (fun hc => absurd hc.2 (by omega))] at h4c
            simp at h4c
    · exfalso
      unfold siteTerms at h5
      split at h5
      · simp at h5
      · split at h5
        · simp at h5
        · split at h5
          · simp at h5
          · split at h5
            · simp only [List.mem_singleton] at h5
              rw [h5] at hurl
              simp at hurl
            · simp at h5
    · exfalso
      unfold aliasTerms at h6
      simp only [List.mem_map] at h6
      obtain ⟨p, _, rfl⟩ := h6
      simp at hurl

/-! ## GitHub data refresh (C2)

Two generations of the refresh coexist in the repository: the current
`refreshStaleGithubData` of `_tasks.js`, in which status is always derived
from the snapshot (`deriveStatus`), and the legacy handler in the second
document of `_auth.js`, in which `item.status` is a stored field guarded
against terminal regression. -/

/-- What a `fetchGithubData` call produced: a network/HTTP failure (null),
a 404 (`{ _notFound: true }`), or a fresh snapshot. -/
inductive FetchOutcome
  | unavailable
  | notFound
  | fetched (gd : GithubData)

/-- The staleness threshold of `_tasks.js`: 15 minutes. -/
def STALE_AFTER_MS : Int := 15 * 60 * 1000

/-- An `item.status_synced` / `item.auto_completed` audit event payload. -/
structure RefreshEvent where
  itemId : String
  itemTitle : String
  oldStatus : String
  newStatus : String
deriving DecidableEq

/-- The empty snapshot produced by spreading an absent `githubData`
(`{ ...undefined, ... }` has no `type`). -/
def emptyGithubData : GithubData :=
  { type := "", state := "", merged := false, homepage := "", title := "",
    fetchedAt := none, notFoundCount := 0 }

/-- Source: the per-item body of the refresh loop in
`refreshStaleGithubData` (`_tasks.js`), with the fetch as an oracle keyed
by the item's URL. Returns the updated item and the status-transition
event, if one was pushed. Note the source quirk on the auto-archive path:
`oldStatus: deriveStatus(item)` is computed after `item.githubData` has
already been replaced. -/
def refreshItemTasks (fetch : String → FetchOutcome) (now : Int) (item : Item) :
    Item × Option RefreshEvent :=
  if item.githubUrl = "" then (item, none)
  else
    let fetchedAt := (item.githubData.bind (fun gd => gd.fetchedAt)).getD 0
    if now - fetchedAt < STALE_AFTER_MS then (item, none)
    else
      match fetch item.githubUrl with
      | .unavailable => (item, none)
      | .notFound =>
        let fails := (item.githubData.map (fun gd => gd.notFoundCount)).getD 0 + 1
        let base := item.githubData.getD emptyGithubData
        if 3 ≤ fails ∧
            ¬ (item.githubData.map (fun gd => gd.state)).getD "" = "archived" then
          let gd2 := { base with
            state := "archived", notFoundCount := fails, fetchedAt := some now }
          let item2 := { item with githubData := some gd2, updatedAt := now }
          let ev := { itemId := item.id, itemTitle := item.title,
                      oldStatus := deriveStatus item2, newStatus := ("done" : String) }
          (item2, some ev)
        else
          let gd2 := { base with notFoundCount := fails, fetchedAt := some now }
          ({ item with githubData := some gd2 }, none)
      | .fetched fresh =>
        let oldStatus := deriveStatus item
        let item2 := { item with githubData := some fresh, updatedAt := now }
        let newStatus := deriveStatus item2
        let ev := { itemId := item.id, itemTitle := item.title,
                    oldStatus := oldStatus, newStatus := newStatus }
        (item2, if ¬ oldStatus = newStatus then some ev else none)

/-- Source: `refreshStaleGithubData(env)` of `_tasks.js` over the whole
registry (the retrying save is modelled separately under C7). -/
def refreshStaleGithubData (fetch : String → FetchOutcome) (now : Int)
    (items : List Item) : List Item × List RefreshEvent :=
  (items.map (fun it => (refreshItemTasks fetch now it).1),
   items.filterMap (fun it => (refreshItemTasks fetch now it).2))

/-- The staleness threshold of the legacy handler: 1 hour. -/
def STALE_AFTER_MS_LEGACY : Int := 60 * 60 * 1000

/-- Source: the per-item body of the legacy `refreshStaleGithubData`
(second document of `_auth.js`), whose fetch returns null on any failure.
`item.status` is a stored field; the auto-complete is skipped for the
terminal statuses done/shipped/paid. -/
def refreshItemLegacy (fetch : String → Option GithubData) (now : Int) (item : Item) :
    Item × Option RefreshEvent :=
  if item.githubUrl = "" then (item, none)
  else
    let fetchedAt := (item.githubData.bind (fun gd => gd.fetchedAt)).getD 0
    if now - fetchedAt < STALE_AFTER_MS_LEGACY then (item, none)
    else
      match fetch item.githubUrl with
      | none => (item, none)
      | some fresh =>
        if (¬ item.status = "done" ∧ ¬ item.status = "shipped" ∧
              ¬ item.status = "paid") ∧
            (fresh.state = "closed" ∨ fresh.state = "archived" ∨ fresh.merged) then
          ({ item with status := "done", githubData := some fresh, updatedAt := now },
           some { itemId := item.id, itemTitle := item.title,
                  oldStatus := item.status, newStatus := ("done" : String) })
        else
          ({ item with githubData := some fresh, updatedAt := now }, none)

/-- A closed-issue snapshot (derived status `done`), fetched at epoch 0. -/
def closedIssueGd : GithubData :=
  { type := "issue", state := "closed", merged := false, homepage := "",
    title := "", fetchedAt := some 0, notFoundCount := 0 }

/-- The same issue after reopening. -/
def openIssueGd : GithubData :=
  { type := "issue", state := "open", merged := false, homepage := "",
    title := "", fetchedAt := some 10000000, notFoundCount := 0 }

/-- An item tracking the closed issue. -/
def doneIssueItem : Item :=
  { baseItem with
    githubUrl := "https://github.com/org/proj/issues/1",
    githubData := some closedIssueGd }

/-- Counterexample to C2 as stated: on the current (derived-status) refresh
path, an item whose status is `done` (closed issue) is moved back to
`in-progress` by a refresh that sees the issue reopened — the refresh even
records a `status_synced` event for the done → in-progress regression. -/
theorem C2_refresh_regression_counterexample :
    deriveStatus doneIssueItem = "done" ∧
    deriveStatus
      (refreshItemTasks (fun _ => .fetched openIssueGd) 10000000 doneIssueItem).1 =
      "in-progress" ∧
    (refreshItemTasks (fun _ => .fetched openIssueGd) 10000000 doneIssueItem).2 =
      some { itemId := "r_00000000", itemTitle := "",
             oldStatus := "done", newStatus := "in-progress" } := by
  refine ⟨rfl, rfl, ?_⟩
  decide

/-- C2 (amended): only the legacy stored-status refresh path is
non-regressing — an item whose stored status is `done`, `shipped` or `paid`
keeps that status across the legacy refresh, whatever the fetched state
reports, and no auto-complete event is emitted for it. (The current
derive-based path recomputes status from the fresh snapshot, so it can
regress: see the counterexample.) -/
theorem C2_legacy_refresh_preserves_terminal (fetch : String → Option GithubData)
    (now : Int) (item : Item)
    (hterm : item.status = "done" ∨ item.status = "shipped" ∨ item.status = "paid") :
    (refreshItemLegacy fetch now item).1.status = item.status ∧
    (refreshItemLegacy fetch now item).2 = none := by
  unfold refreshItemLegacy
  split
  · exact ⟨rfl, rfl⟩
  · dsimp only
    split
    · exact ⟨rfl, rfl⟩
    · split
      · exact ⟨rfl, rfl⟩
      · split
        · rename_i hcond
          rcases hterm with h | h | h <;> simp [h] at hcond
        · exact ⟨rfl, rfl⟩

/-- A paid item tracking the closed issue, for the C2 witness. -/
def paidIssueItem : Item := { doneIssueItem with status := "paid" }

/-- Witness for C2 (amended): the legacy refresh leaves a `paid` item's
status untouched even when the fetch reports a closed snapshot. -/
theorem C2_legacy_refresh_preserves_terminal_witness :
    (refreshItemLegacy (fun _ => some closedIssueGd) 10000000000 paidIssueItem).1.status =
      "paid" ∧
    (refreshItemLegacy (fun _ => some closedIssueGd) 10000000000 paidIssueItem).2 =
      none := by
  have h := C2_legacy_refresh_preserves_terminal (fun _ => some closedIssueGd)
    10000000000 paidIssueItem (Or.inr (Or.inr rfl))
  exact ⟨h.1, h.2⟩

/-- A titled item whose bare repository name (`skills`, 6 characters) is
below the 8-character floor, for the C5 witness. -/
def itemW : Item :=
  { baseItem with title := "Demo App", githubUrl := "https://github.com/org/skills" }

/-- Witness for C5: a message containing the lower-cased title matches via
the title term, and no url-typed term beyond the full URL and the
owner/repo path is generated for the short repository name. -/
theorem C5_match_terms_witness :
    matchMention "check out demo app today" itemW = some "title" ∧
    (∀ t ∈ getMatchTerms itemW, t.type = "url" →
      t.text = toLowerStr itemW.githubUrl ∨ t.text = ghPathOf itemW) :=
  ⟨(C5_match_terms itemW "check out demo app today").1 (by decide) (by decide),
   (C5_match_terms itemW "x").2 (by decide)⟩

/-! ## Mention scanning (C8): archive and full-reset rescan

`scanForMentions(env, { reset: true })` is modelled as a pure transform of
(archive, activity feed, items). The reset path skips the cooldown and the
processed-id set, archives the live message events, merges the archive
back in, zeroes all mention counts and recounts over the merged events;
per-match audit emission is suppressed on reset and does not touch the
registry. The save is modelled as succeeding (saveRetry is studied under
C7). -/

/-- One archived message (`roadmap:message-archive` entry). -/
structure Msg where
  timestamp : String
  agent : Option Agent
  recipient : Option Agent
  messagePreview : String
deriving DecidableEq

/-- One AIBTC activity-feed event. `type` is `"message"` for messages;
`timestamp` and `messagePreview` use `""` for the falsy absent value. -/
structure ActivityEvent where
  type : String
  timestamp : String
  messagePreview : String
  agent : Option Agent
  recipient : Option Agent
deriving DecidableEq

/-- The projection `archiveMessages` stores (agent and recipient reduced to
address and display name). -/
def msgOfEvent (ev : ActivityEvent) : Msg :=
  { timestamp := ev.timestamp,
    agent := ev.agent.map (fun a =>
      { btcAddress := a.btcAddress, displayName := a.displayName, agentId := "" }),
    recipient := ev.recipient.map (fun a =>
      { btcAddress := a.btcAddress, displayName := a.displayName, agentId := "" }),
    messagePreview := ev.messagePreview }

/-- An archived message replayed as an event: the stored object has no
`type` field (`""`), which the reset filter accepts. -/
def eventOfMsg (m : Msg) : ActivityEvent :=
  { type := "", timestamp := m.timestamp, messagePreview := m.messagePreview,
    agent := m.agent, recipient := m.recipient }

/-- Descending-by-timestamp stable insertion, modelling the stable JS
`sort((a, b) => b.timestamp.localeCompare(a.timestamp))` with code-point
string comparison. -/
def insertMsgDesc (m : Msg) : List Msg → List Msg
  | [] => [m]
  | x :: xs =>
    if x.timestamp ≤ m.timestamp then m :: x :: xs else x :: insertMsgDesc m xs

/-- See `insertMsgDesc`. -/
def sortMsgsDesc (l : List Msg) : List Msg := l.foldr insertMsgDesc []

/-- The archive capacity. -/
def MAX_ARCHIVED_MESSAGES : Nat := 2000

/-- The append loop of `archiveMessages`: skip events with a falsy or
already-seen timestamp, append the projection of the rest, and count the
additions. -/
def archiveAdd : List Msg → List String → List ActivityEvent → List Msg × Nat
  | existing, _, [] => (existing, 0)
  | existing, seen, ev :: evs =>
    if ev.timestamp = "" ∨ ev.timestamp ∈ seen then archiveAdd existing seen evs
    else
      let r := archiveAdd (existing ++ [msgOfEvent ev]) (ev.timestamp :: seen) evs
      (r.1, r.2 + 1)

/-- Source: `archiveMessages(env, messageEvents)` in `_tasks.js` — dedup by
timestamp against the existing archive, and only when something was added,
sort newest-first and cap at `MAX_ARCHIVED_MESSAGES`. -/
def archiveMessages (archive : List Msg) (evs : List ActivityEvent) : List Msg :=
  if evs.isEmpty then archive
  else
    let r := archiveAdd archive (archive.map (fun m => m.timestamp)) evs
    if 0 < r.2 then (sortMsgsDesc r.1).take MAX_ARCHIVED_MESSAGES else archive

/-- Source: the per-item body of the event loop in `scanForMentions` — on
a match, bump the mention count (creating the `mentions` object when
missing) and opportunistically add the sending agent as contributor. -/
def processEvent (ev : ActivityEvent) (it : Item) : Item :=
  let preview := toLowerStr ev.messagePreview
  match matchMention preview it with
  | some _ =>
    let it2 := { it with mentions := some ((it.mentions.getD 0) + 1) }
    match ev.agent with
    | some a =>
      if ¬ a.btcAddress = "" then
        let sender : Agent :=
          { btcAddress := a.btcAddress, displayName := a.displayName, agentId := "" }
        { it2 with contributors := addContributor it2.contributors sender }
      else it2
    | none => it2
  | none => it

/-- Zero an item's mention count, when the `mentions` object exists
(`if (item.mentions) item.mentions.count = 0`). -/
def zeroMentions (it : Item) : Item :=
  { it with mentions := it.mentions.map (fun _ => 0) }

/-- Source: `scanForMentions(env, { reset: true })` as a pure transform of
(archive, items) given the fetched activity events; returns the new archive
and items. On reset the cooldown is skipped and the processed-id set is
empty, so the merged event list is exactly what gets counted. -/
def scanForMentionsReset (archive0 : List Msg) (activity : List ActivityEvent)
    (items : List Item) : List Msg × List Item :=
  let messageEvents := activity.filter
    (fun e => e.type = "message" ∧ ¬ e.messagePreview = "")
  let archive1 := archiveMessages archive0 messageEvents
  let merged :=
    if ¬ messageEvents.isEmpty then
      messageEvents ++
        (archive1.filter (fun m =>
          ¬ m.timestamp ∈ messageEvents.map (fun e => e.timestamp) ∧
          ¬ m.messagePreview = "")).map eventOfMsg
    else messageEvents
  if merged.isEmpty then (archive1, items)
  else
    let items0 := items.map zeroMentions
    let items1 := merged.foldl (fun its ev => its.map (processEvent ev)) items0
    (archive1, items1)

/-- The descending-timestamp relation the archive is sorted by. -/
def msgGE (a b : Msg) : Prop := b.timestamp ≤ a.timestamp

/-- Membership through descending insertion. -/
theorem mem_insertMsgDesc (m a : Msg) (l : List Msg) :
    a ∈ insertMsgDesc m l ↔ a = m ∨ a ∈ l := by
  induction l with
  | nil => simp [insertMsgDesc]
  | cons x xs ih =>
    unfold insertMsgDesc
    split
    · simp
    · rw [List.mem_cons, ih, List.mem_cons]
      tauto

/-- Descending insertion permutes a cons. -/
theorem insertMsgDesc_perm (m : Msg) (l : List Msg) :
    (insertMsgDesc m l).Perm (m :: l) := by
  induction l with
  | nil => simp [insertMsgDesc]
  | cons x xs ih =>
    unfold insertMsgDesc
    split
    · exact List.Perm.refl _
    · exact (ih.cons x).trans (List.Perm.swap m x xs)

/-- The descending sort permutes its input. -/
theorem sortMsgsDesc_perm (l : List Msg) : (sortMsgsDesc l).Perm l := by
  induction l with
  | nil => exact List.Perm.refl _
  | cons x xs ih =>
    exact (insertMsgDesc_perm x (sortMsgsDesc xs)).trans (ih.cons x)

/-- Descending insertion preserves sortedness. -/
theorem insertMsgDesc_sorted (m : Msg) (l : List Msg)
    (hl : l.Pairwise msgGE) : (insertMsgDesc m l).Pairwise msgGE := by
  induction l with
  | nil => simp [insertMsgDesc, msgGE]
  | cons x xs ih =>
    unfold insertMsgDesc
    split
    · rename_i hle
      refine List.Pairwise.cons ?_ hl
      intro b hb
      rcases List.mem_cons.mp hb with rfl | hb
      · exact hle
      · exact le_trans (List.rel_of_pairwise_cons hl hb) hle
    · rename_i hgt
      refine List.Pairwise.cons ?_ (ih (List.Pairwise.of_cons hl))
      intro b hb
      rcases (mem_insertMsgDesc m b xs).mp hb with rfl | hb
      · exact le_of_not_le hgt
      · exact List.rel_of_pairwise_cons hl hb

/-- The descending sort sorts. -/
theorem sortMsgsDesc_sorted (l : List Msg) : (sortMsgsDesc l).Pairwise msgGE := by
  induction l with
  | nil => simp [sortMsgsDesc]
  | cons x xs ih => exact insertMsgDesc_sorted x (sortMsgsDesc xs) ih

/-- Sorting a sorted list followed by strictly-smaller elements keeps the
sorted prefix in place. -/
theorem sortMsgsDesc_append_lower (l2 : List Msg) :
    ∀ l1 : List Msg, l1.Pairwise msgGE →
      (∀ b ∈ l2, ∀ a ∈ l1, b.timestamp < a.timestamp) →
      sortMsgsDesc (l1 ++ l2) = l1 ++ sortMsgsDesc l2 := by
  intro l1
  induction l1 with
  | nil => intro _ _; simp
  | cons x l1x ih =>
    intro h1 hlt
    have hstep : sortMsgsDesc ((x :: l1x) ++ l2) =
        insertMsgDesc x (sortMsgsDesc (l1x ++ l2)) := rfl
    rw [hstep, ih (List.Pairwise.of_cons h1)
      (fun b hb a ha => hlt b hb a (List.mem_cons_of_mem x ha))]
    cases hcase : l1x with
    | cons c cs =>
      have hc : c.timestamp ≤ x.timestamp :=
        List.rel_of_pairwise_cons h1 (by rw [hcase]; exact List.mem_cons_self c cs)
      rw [show c :: cs ++ sortMsgsDesc l2 = c :: (cs ++ sortMsgsDesc l2) from rfl,
        insertMsgDesc, if_pos hc]
      rfl
    | nil =>
      simp only [List.nil_append]
      cases hsl : sortMsgsDesc l2 with
      | nil => rfl
      | cons c cs =>
        have hcmem : c ∈ l2 := (sortMsgsDesc_perm l2).mem_iff.mp (by rw [hsl]; simp)
        have hc : c.timestamp ≤ x.timestamp :=
          le_of_lt (hlt c hcmem x (List.mem_cons_self x l1x))
        rw [insertMsgDesc, if_pos hc]
        rfl

/-- The add loop appends exactly `count` fresh-timestamped projections of
listed events. -/
theorem archiveAdd_decomp :
    ∀ (evs : List ActivityEvent) (existing : List Msg) (seen : List String),
      ∃ added, (archiveAdd existing seen evs).1 = existing ++ added ∧
        added.length = (archiveAdd existing seen evs).2 ∧
        ∀ m ∈ added, (∃ ev ∈ evs, m = msgOfEvent ev) ∧
          ¬ m.timestamp = "" ∧ ¬ m.timestamp ∈ seen := by
  intro evs
  induction evs with
  | nil =>
    intro existing seen
    exact ⟨[], by simp [archiveAdd], by simp [archiveAdd], by simp⟩
  | cons ev evs ih =>
    intro existing seen
    unfold archiveAdd
    split
    · obtain ⟨added, h1, hlen, h2⟩ := ih existing seen
      refine ⟨added, h1, hlen, fun m hm => ⟨?_, (h2 m hm).2⟩⟩
      obtain ⟨ev2, hev2, hm2⟩ := (h2 m hm).1
      exact ⟨ev2, List.mem_cons_of_mem ev hev2, hm2⟩
    · rename_i hcond
      push_neg at hcond
      obtain ⟨added, h1, hlen, h2⟩ :=
        ih (existing ++ [msgOfEvent ev]) (ev.timestamp :: seen)
      refine ⟨msgOfEvent ev :: added, ?_, ?_, ?_⟩
      · dsimp only
        rw [h1]
        simp
      · dsimp only
        rw [List.length_cons, hlen]
      · intro m hm
        rcases List.mem_cons.mp hm with rfl | hm2
        · exact ⟨⟨ev, List.mem_cons_self ev evs, rfl⟩, hcond.1, hcond.2⟩
        · refine ⟨?_, (h2 m hm2).2.1, ?_⟩
          · obtain ⟨ev2, hev2, hm2e⟩ := (h2 m hm2).1
            exact ⟨ev2, List.mem_cons_of_mem ev hev2, hm2e⟩
          · intro habs
            exact (h2 m hm2).2.2 (by simp [habs])

/-- When every event is falsy-timestamped or already seen, the loop is a
no-op. -/
theorem archiveAdd_all_seen :
    ∀ (evs : List ActivityEvent) (existing : List Msg) (seen : List String),
      (∀ ev ∈ evs, ev.timestamp = "" ∨ ev.timestamp ∈ seen) →
      archiveAdd existing seen evs = (existing, 0) := by
  intro evs
  induction evs with
  | nil => intro existing seen _; rfl
  | cons ev evs ih =>
    intro existing seen hall
    unfold archiveAdd
    rw [if_pos (hall ev (List.mem_cons_self ev evs))]
    exact ih existing seen (fun e he => hall e (List.mem_cons_of_mem ev he))

/-- A zero count means the loop was a no-op and every event was falsy or
seen. -/
theorem archiveAdd_zero :
    ∀ (evs : List ActivityEvent) (existing : List Msg) (seen : List String),
      (archiveAdd existing seen evs).2 = 0 →
      (archiveAdd existing seen evs).1 = existing ∧
        ∀ ev ∈ evs, ev.timestamp = "" ∨ ev.timestamp ∈ seen := by
  intro evs
  induction evs with
  | nil => intro existing seen _; exact ⟨rfl, by simp⟩
  | cons ev evs ih =>
    intro existing seen h0
    unfold archiveAdd at h0 ⊢
    split at h0
    · rename_i hcond
      obtain ⟨h1, h2⟩ := ih existing seen h0
      rw [if_pos hcond]
      refine ⟨h1, fun e he => ?_⟩
      rcases List.mem_cons.mp he with rfl | he2
      · exact hcond
      · exact h2 e he2
    · dsimp only at h0
      omega

/-- Every truthy event timestamp ends up in the loop result (given the
seen set is covered by the existing archive). -/
theorem archiveAdd_ts_covered :
    ∀ (evs : List ActivityEvent) (existing : List Msg) (seen : List String),
      (∀ s ∈ seen, s ∈ existing.map (fun m => m.timestamp)) →
      ∀ ev ∈ evs, ¬ ev.timestamp = "" →
        ev.timestamp ∈ (archiveAdd existing seen evs).1.map (fun m => m.timestamp) := by
  intro evs
  induction evs with
  | nil => intro existing seen _ ev hev; simp at hev
  | cons ev0 evs ih =>
    intro existing seen hcov ev hev hts
    have hpre : ∀ ex2 : List Msg,
        ev.timestamp ∈ ex2.map (fun m => m.timestamp) →
        ∀ seen2, ev.timestamp ∈
          ((archiveAdd ex2 seen2 evs).1.map (fun m => m.timestamp)) := by
      intro ex2 hin seen2
      obtain ⟨added, h1, _, _⟩ := archiveAdd_decomp evs ex2 seen2
      rw [h1, List.map_append]
      exact List.mem_append_left _ hin
    unfold archiveAdd
    split
    · rename_i hcond
      rcases List.mem_cons.mp hev with rfl | hev2
      · rcases hcond with hc | hc
        · exact absurd hc hts
        · exact hpre existing (hcov _ hc) seen
      · exact ih existing seen hcov ev hev2 hts
    · rename_i hcond
      push_neg at hcond
      dsimp only
      have hcov2 : ∀ s ∈ ev0.timestamp :: seen,
          s ∈ (existing ++ [msgOfEvent ev0]).map (fun m => m.timestamp) := by
        intro s hs
        rcases List.mem_cons.mp hs with rfl | hs2
        · simp [msgOfEvent]
        · rw [List.map_append]
          exact List.mem_append_left _ (hcov s hs2)
      rcases List.mem_cons.mp hev with rfl | hev2
      · exact hpre (existing ++ [msgOfEvent ev]) (by simp [msgOfEvent])
          (ev.timestamp :: seen)
      · exact ih (existing ++ [msgOfEvent ev0]) (ev0.timestamp :: seen) hcov2 ev hev2 hts

/-- Running `archiveMessages` a second time with the same events is a
no-op: every event is either already in the archive by timestamp, or was
trimmed away as older than the whole capped archive and is trimmed again. -/
theorem archiveMessages_idem (archive0 : List Msg) (L : List ActivityEvent) :
    archiveMessages (archiveMessages archive0 L) L = archiveMessages archive0 L := by
  by_cases hL : L.isEmpty
  · simp [archiveMessages, hL]
  · have harch : archiveMessages archive0 L =
        (if 0 < (archiveAdd archive0 (archive0.map (fun m => m.timestamp)) L).2 then
          (sortMsgsDesc (archiveAdd archive0 (archive0.map (fun m => m.timestamp)) L).1).take
            MAX_ARCHIVED_MESSAGES
        else archive0) := by
      unfold archiveMessages
      rw [if_neg hL]
    by_cases hadd1 : 0 < (archiveAdd archive0 (archive0.map (fun m => m.timestamp)) L).2
    case neg =>
      obtain ⟨_, hall⟩ := archiveAdd_zero L archive0 (archive0.map (fun m => m.timestamp))
        (by omega)
      have h1 : archiveMessages archive0 L = archive0 := by rw [harch, if_neg hadd1]
      rw [h1]
      unfold archiveMessages
      rw [if_neg hL, archiveAdd_all_seen L archive0 (archive0.map (fun m => m.timestamp)) hall]
      simp
    case pos =>
      have h1 : archiveMessages archive0 L =
          (sortMsgsDesc (archiveAdd archive0 (archive0.map (fun m => m.timestamp)) L).1).take
            MAX_ARCHIVED_MESSAGES := by rw [harch, if_pos hadd1]
      set full := sortMsgsDesc (archiveAdd archive0 (archive0.map (fun m => m.timestamp)) L).1
        with hfull
      set A1 := full.take MAX_ARCHIVED_MESSAGES with hA1def
      rw [h1]
      unfold archiveMessages
      rw [if_neg hL]
      by_cases hadd2 : 0 < (archiveAdd A1 (A1.map (fun m => m.timestamp)) L).2
      case neg => rw [if_neg hadd2]
      case pos =>
        rw [if_pos hadd2]
        obtain ⟨added2, hdec2, hlen2, hprops2⟩ :=
          archiveAdd_decomp L A1 (A1.map (fun m => m.timestamp))
        have hfullsorted : full.Pairwise msgGE := sortMsgsDesc_sorted _
        have hA1sorted : A1.Pairwise msgGE :=
          hfullsorted.sublist (List.take_sublist _ _)
        -- every appended message sits strictly below the whole capped archive
        have hkey : ∀ m ∈ added2,
            (¬ m.timestamp ∈ A1.map (fun mm => mm.timestamp)) ∧
            m.timestamp ∈ full.map (fun mm => mm.timestamp) := by
          intro m hm
          obtain ⟨⟨ev, hev, hmev⟩, hts, hnotseen⟩ := hprops2 m hm
          refine ⟨hnotseen, ?_⟩
          have hts2 : ¬ ev.timestamp = "" := by
            intro habs
            exact hts (by rw [hmev]; exact habs)
          have hcov := archiveAdd_ts_covered L archive0
            (archive0.map (fun mm => mm.timestamp)) (fun s hs => hs) ev hev hts2
          have hmts : m.timestamp = ev.timestamp := by rw [hmev]; rfl
          rw [hmts]
          exact (List.Perm.mem_iff ((sortMsgsDesc_perm
            (archiveAdd archive0 (archive0.map (fun mm => mm.timestamp)) L).1).map
            (fun mm => mm.timestamp))).mpr hcov
        have hlenA1 : A1.length = MAX_ARCHIVED_MESSAGES := by
          obtain ⟨m0, hm0⟩ := List.exists_mem_of_length_pos (by omega : 0 < added2.length)
          by_contra hne
          have hlt : full.length < MAX_ARCHIVED_MESSAGES := by
            have := List.length_take MAX_ARCHIVED_MESSAGES full
            rw [← hA1def] at this
            omega
          have : A1 = full := by
            rw [hA1def]
            exact List.take_of_length_le (by omega)
          obtain ⟨hnotin, hin⟩ := hkey m0 hm0
          rw [this] at hnotin
          exact hnotin hin
        have hbound : ∀ m ∈ added2, ∀ a ∈ A1, m.timestamp < a.timestamp := by
          intro m hm a ha
          obtain ⟨hnotin, hin⟩ := hkey m hm
          have hsplit : full = A1 ++ full.drop MAX_ARCHIVED_MESSAGES := by
            rw [hA1def]
            exact (List.take_append_drop _ _).symm
          rw [hsplit, List.map_append] at hin
          rcases List.mem_append.mp hin with hin1 | hin2
          · exact absurd hin1 hnotin
          · obtain ⟨d, hd, hdts⟩ := List.mem_map.mp hin2
            have hge : d.timestamp ≤ a.timestamp := by
              have hpw := hsplit ▸ hfullsorted
              exact (List.pairwise_append.mp hpw).2.2 a ha d hd
            have hne : m.timestamp ≠ a.timestamp := by
              intro habs
              exact hnotin (habs ▸ List.mem_map.mpr ⟨a, ha, rfl⟩)
            rw [hdts] at hge
            exact lt_of_le_of_ne hge hne
        rw [hdec2, sortMsgsDesc_append_lower added2 A1 hA1sorted hbound, ← hlenA1,
          List.take_left]

/-- `processEvent` never touches the fields mention matching reads. -/
theorem processEvent_fields (ev : ActivityEvent) (it : Item) :
    (processEvent ev it).title = it.title ∧
    (processEvent ev it).githubUrl = it.githubUrl ∧
    (processEvent ev it).githubData = it.githubData ∧
    (processEvent ev it).searchTerms = it.searchTerms := by
  unfold processEvent
  dsimp only
  cases hm : matchMention (toLowerStr ev.messagePreview) it with
  | none => exact ⟨rfl, rfl, rfl, rfl⟩
  | some t =>
    dsimp only
    cases ev.agent with
    | none => exact ⟨rfl, rfl, rfl, rfl⟩
    | some a =>
      dsimp only
      split <;> exact ⟨rfl, rfl, rfl, rfl⟩

/-- The GitHub path depends only on the URL. -/
theorem ghPathOf_congr (it1 it2 : Item) (h2 : it1.githubUrl = it2.githubUrl) :
    ghPathOf it1 = ghPathOf it2 := by
  unfold ghPathOf
  rw [h2]

/-- The match terms depend only on title, URL, snapshot and search terms. -/
theorem getMatchTerms_congr (it1 it2 : Item) (h1 : it1.title = it2.title)
    (h2 : it1.githubUrl = it2.githubUrl) (h3 : it1.githubData = it2.githubData)
    (h4 : it1.searchTerms = it2.searchTerms) :
    getMatchTerms it1 = getMatchTerms it2 := by
  have hparts : titlePartsOf it1 = titlePartsOf it2 := by
    unfold titlePartsOf
    rw [h1]
  have ht : titleTerms it1 = titleTerms it2 := by
    unfold titleTerms
    rw [h1]
  have htp : titlePartTerms it1 = titlePartTerms it2 := by
    unfold titlePartTerms
    rw [hparts, h1]
  have hsl : slugTerms it1 = slugTerms it2 := by
    unfold slugTerms
    rw [hparts, h1]
  have hgp := ghPathOf_congr it1 it2 h2
  have hrs : repoSpacedOf it1 = repoSpacedOf it2 := by
    unfold repoSpacedOf
    rw [hgp]
  have hgh : ghTerms it1 = ghTerms it2 := by
    unfold ghTerms
    rw [hgp, hrs, h2]
  have hsi : siteTerms it1 = siteTerms it2 := by
    unfold siteTerms
    rw [h3]
  have hal : aliasTerms it1 = aliasTerms it2 := by
    unfold aliasTerms
    rw [h4]
  unfold getMatchTerms
  rw [ht, htp, hsl, hgh, hsi, hal]

/-- See `getMatchTerms_congr`. -/
theorem matchMention_congr (p : String) (it1 it2 : Item)
    (h : getMatchTerms it1 = getMatchTerms it2) :
    matchMention p it1 = matchMention p it2 := by
  unfold matchMention
  rw [h]

/-- How many of the events mention the item. -/
def matchCount (evs : List ActivityEvent) (it : Item) : Nat :=
  evs.countP (fun ev => (matchMention (toLowerStr ev.messagePreview) it).isSome)

/-- What one event does to the mention count. -/
theorem processEvent_mentions (ev : ActivityEvent) (it : Item) :
    (processEvent ev it).mentions =
      if (matchMention (toLowerStr ev.messagePreview) it).isSome then
        some ((it.mentions.getD 0) + 1)
      else it.mentions := by
  unfold processEvent
  dsimp only
  cases hm : matchMention (toLowerStr ev.messagePreview) it with
  | none => simp
  | some t =>
    dsimp only
    cases ev.agent with
    | none => simp
    | some a =>
      dsimp only
      split <;> simp

/-- `matchCount` only looks at the fields `processEvent` preserves. -/
theorem matchCount_congr (evs : List ActivityEvent) (it1 it2 : Item)
    (h1 : it1.title = it2.title) (h2 : it1.githubUrl = it2.githubUrl)
    (h3 : it1.githubData = it2.githubData) (h4 : it1.searchTerms = it2.searchTerms) :
    matchCount evs it1 = matchCount evs it2 := by
  unfold matchCount
  have : (fun ev : ActivityEvent =>
      (matchMention (toLowerStr ev.messagePreview) it1).isSome) =
      (fun ev : ActivityEvent =>
        (matchMention (toLowerStr ev.messagePreview) it2).isSome) := by
    funext ev
    rw [matchMention_congr _ it1 it2 (getMatchTerms_congr it1 it2 h1 h2 h3 h4)]
  rw [this]

/-- Folding the events over one item preserves the matching fields. -/
theorem foldl_processEvent_fields (evs : List ActivityEvent) :
    ∀ it : Item,
      (evs.foldl (fun x ev => processEvent ev x) it).title = it.title ∧
      (evs.foldl (fun x ev => processEvent ev x) it).githubUrl = it.githubUrl ∧
      (evs.foldl (fun x ev => processEvent ev x) it).githubData = it.githubData ∧
      (evs.foldl (fun x ev => processEvent ev x) it).searchTerms = it.searchTerms := by
  induction evs with
  | nil => intro it; exact ⟨rfl, rfl, rfl, rfl⟩
  | cons ev evs ih =>
    intro it
    rw [List.foldl_cons]
    obtain ⟨f1, f2, f3, f4⟩ := ih (processEvent ev it)
    obtain ⟨g1, g2, g3, g4⟩ := processEvent_fields ev it
    exact ⟨f1.trans g1, f2.trans g2, f3.trans g3, f4.trans g4⟩

/-- The mention count after a full fold: existing counters gain the match
count, a missing `mentions` object appears exactly when a match occurred. -/
theorem foldl_processEvent_mentions (evs : List ActivityEvent) :
    ∀ it : Item,
      (evs.foldl (fun x ev => processEvent ev x) it).mentions =
        match it.mentions with
        | some c => some (c + matchCount evs it)
        | none =>
          if matchCount evs it = 0 then none else some (matchCount evs it) := by
  induction evs with
  | nil =>
    intro it
    cases h : it.mentions <;> simp [matchCount, h]
  | cons ev evs ih =>
    intro it
    rw [List.foldl_cons, ih (processEvent ev it)]
    obtain ⟨g1, g2, g3, g4⟩ := processEvent_fields ev it
    have hmc : matchCount evs (processEvent ev it) = matchCount evs it :=
      matchCount_congr evs _ _ g1 g2 g3 g4
    rw [processEvent_mentions]
    by_cases hmatch : (matchMention (toLowerStr ev.messagePreview) it).isSome
    · rw [if_pos hmatch]
      have hcnt : matchCount (ev :: evs) it = matchCount evs it + 1 := by
        unfold matchCount
        rw [List.countP_cons]
        simp [hmatch]
      rw [hmc, hcnt]
      cases it.mentions with
      | some c =>
        dsimp only [Option.getD_some]
        rw [Option.some.injEq]
        omega
      | none =>
        dsimp only [Option.getD_none]
        rw [if_neg (by omega)]
        rw [Option.some.injEq]
        omega
    · rw [if_neg hmatch]
      have hcnt : matchCount (ev :: evs) it = matchCount evs it := by
        unfold matchCount
        rw [List.countP_cons]
        simp [hmatch]
      rw [hmc, hcnt]

/-- The event fold over the whole item list is the per-item fold mapped. -/
theorem foldl_map_processEvent (evs : List ActivityEvent) :
    ∀ its : List Item,
      evs.foldl (fun l ev => l.map (processEvent ev)) its =
        its.map (fun it => evs.foldl (fun x ev => processEvent ev x) it) := by
  induction evs with
  | nil => intro its; simp
  | cons ev evs ih =>
    intro its
    rw [List.foldl_cons, ih (its.map (processEvent ev)), List.map_map]
    rfl

/-- One full-reset recount leaves a state the next recount reproduces:
per item, the mention counter after the second zero-and-recount equals the
one after the first. -/
theorem per_item_mentions_idem (M : List ActivityEvent) (it : Item) :
    (M.foldl (fun x ev => processEvent ev x)
      (zeroMentions (M.foldl (fun x ev => processEvent ev x)
        (zeroMentions it)))).mentions =
    (M.foldl (fun x ev => processEvent ev x) (zeroMentions it)).mentions := by
  have hzfields : ∀ x : Item, (zeroMentions x).title = x.title ∧
      (zeroMentions x).githubUrl = x.githubUrl ∧
      (zeroMentions x).githubData = x.githubData ∧
      (zeroMentions x).searchTerms = x.searchTerms := fun x => ⟨rfl, rfl, rfl, rfl⟩
  have hz : ∀ x : Item, matchCount M (zeroMentions x) = matchCount M x := fun x =>
    matchCount_congr M _ _ (hzfields x).1 (hzfields x).2.1 (hzfields x).2.2.1
      (hzfields x).2.2.2
  have hffields := foldl_processEvent_fields M (zeroMentions it)
  have hcf : matchCount M (M.foldl (fun x ev => processEvent ev x) (zeroMentions it)) =
      matchCount M it := by
    rw [matchCount_congr M _ _ hffields.1 hffields.2.1 hffields.2.2.1 hffields.2.2.2,
      hz it]
  have hzm : ∀ x : Item, (zeroMentions x).mentions = x.mentions.map (fun _ => 0) :=
    fun _ => rfl
  rw [foldl_processEvent_mentions, foldl_processEvent_mentions, hz it,
    hz (M.foldl (fun x ev => processEvent ev x) (zeroMentions it)), hcf]
  rw [hzm, hzm, foldl_processEvent_mentions, hz it, hzm]
  cases h : it.mentions with
  | none =>
    by_cases h0 : matchCount M it = 0 <;> simp [h0]
  | some c =>
    simp

/-- C8: the full-reset mention rescan is idempotent — with the same
activity-feed contents (and the archive evolving only through the scan
itself), running the reset scan twice leaves every item with the same
mention counter as after the first run. -/
theorem C8_reset_rescan_idempotent (archive0 : List Msg)
    (activity : List ActivityEvent) (items : List Item) :
    ((scanForMentionsReset (scanForMentionsReset archive0 activity items).1
        activity (scanForMentionsReset archive0 activity items).2).2.map
      (fun it => it.mentions)) =
    ((scanForMentionsReset archive0 activity items).2.map
      (fun it => it.mentions)) := by
  unfold scanForMentionsReset
  dsimp only
  set L := activity.filter (fun e => e.type = "message" ∧ ¬ e.messagePreview = "")
    with hLdef
  set archive1 := archiveMessages archive0 L with harch1
  have harch2 : archiveMessages archive1 L = archive1 := archiveMessages_idem archive0 L
  set M := (if ¬ L.isEmpty then
      L ++ (archive1.filter (fun m =>
        ¬ m.timestamp ∈ L.map (fun e => e.timestamp) ∧
        ¬ m.messagePreview = "")).map eventOfMsg
    else L) with hMdef
  by_cases hM : M.isEmpty
  · rw [if_pos hM]
    dsimp only
    rw [harch2, ← hMdef, if_pos hM]
  · rw [if_neg hM]
    dsimp only
    rw [harch2, ← hMdef, if_neg hM]
    dsimp only
    rw [foldl_map_processEvent, foldl_map_processEvent]
    rw [List.map_map, List.map_map, List.map_map, List.map_map, List.map_map,
      List.map_map]
    rw [List.map_eq_map_iff]
    intro it _
    exact per_item_mentions_idem M it

/-! ### C4: website discovery (`discoverWebsites`, `_tasks.js` 959–1096) -/

/-- The result of `parseGithubUrl` in `_tasks.js`: owner, repo, the kind of
reference (`issue`/`pr`/`repo`) and the issue or PR number. -/
structure GithubRef where
  owner : String
  repo : String
  type : String
  number : Option Nat
deriving DecidableEq

/-- JS `parseInt` on a captured run of decimal digits. -/
def digitsVal (ds : List Char) : Nat :=
  ds.foldl (fun n c => n * 10 + (c.toNat - 48)) 0

/-- One attempt of the issue/PR pattern
`github\.com\/([^/]+)\/([^/]+)\/(issues|pull)\/(\d+)` at the position right
after a `github.com/` occurrence. The `[^/]+` groups cannot backtrack across
a slash, so at a fixed start the match is the greedy one or none. -/
def parseIssuePr (cs : List Char) : Option GithubRef :=
  let owner := cs.takeWhile (fun c => ¬ c = '/')
  let r1 := cs.dropWhile (fun c => ¬ c = '/')
  match r1 with
  | '/' :: r2 =>
    if owner.isEmpty then none
    else
      let repo := r2.takeWhile (fun c => ¬ c = '/')
      let r3 := r2.dropWhile (fun c => ¬ c = '/')
      match r3 with
      | '/' :: r4 =>
        if repo.isEmpty then none
        else if ("issues/".toList).isPrefixOf r4 then
          let ds := (r4.drop 7).takeWhile Char.isDigit
          if ds.isEmpty then none
          else some { owner := String.mk owner, repo := String.mk repo,
                      type := "issue", number := some (digitsVal ds) }
        else if ("pull/".toList).isPrefixOf r4 then
          let ds := (r4.drop 5).takeWhile Char.isDigit
          if ds.isEmpty then none
          else some { owner := String.mk owner, repo := String.mk repo,
                      type := "pr", number := some (digitsVal ds) }
        else none
      | _ => none
  | _ => none

/-- One attempt of the repo pattern `github\.com\/([^/]+)\/([^/?#]+)` right
after a `github.com/` occurrence. -/
def parseRepoRef (cs : List Char) : Option GithubRef :=
  let owner := cs.takeWhile (fun c => ¬ c = '/')
  let r1 := cs.dropWhile (fun c => ¬ c = '/')
  match r1 with
  | '/' :: r2 =>
    if owner.isEmpty then none
    else
      let repo := r2.takeWhile (fun c => ¬ (c = '/' ∨ c = '?' ∨ c = '#'))
      if repo.isEmpty then none
      else some { owner := String.mk owner, repo := String.mk repo,
                  type := "repo", number := none }
  | _ => none

/-- The suffixes following each occurrence of the literal `github.com/`,
left to right — the candidate match positions of the source's regexes. -/
def githubTails : List Char → List (List Char)
  | [] => []
  | c :: cs =>
    if ("github.com/".toList).isPrefixOf (c :: cs) then
      ((c :: cs).drop 11) :: githubTails cs
    else githubTails cs

/-- Source: `parseGithubUrl(url)` in `_tasks.js` — the issue/PR pattern is
tried first over the whole string (leftmost occurrence wins), then the
plain repo pattern. -/
def parseGithubUrl (url : String) : Option GithubRef :=
  if url = "" then none
  else
    match (githubTails url.toList).findSome? parseIssuePr with
    | some r => some r
    | none => (githubTails url.toList).findSome? parseRepoRef

/-- Source: `NOISE_HOSTS` in `_tasks.js`. -/
def NOISE_HOSTS : List String :=
  ["github.com", "www.github.com", "docs.github.com",
   "raw.githubusercontent.com", "user-images.githubusercontent.com",
   "avatars.githubusercontent.com", "camo.githubusercontent.com",
   "npmjs.com", "www.npmjs.com",
   "shields.io", "img.shields.io", "badge.fury.io",
   "coveralls.io", "codecov.io",
   "travis-ci.org", "travis-ci.com", "circleci.com",
   "david-dm.org", "gitter.im",
   "localhost", "example.com",
   "crates.io", "pypi.org", "rubygems.org",
   "bun.sh", "bun.com", "deno.land", "deno.com", "nodejs.org"]

/-- A JS regex word character (`\w`): letter, digit or underscore. -/
def isWordChar (c : Char) : Bool :=
  ('a' ≤ c ∧ c ≤ 'z') ∨ ('A' ≤ c ∧ c ≤ 'Z') ∨ ('0' ≤ c ∧ c ≤ '9') ∨ c = '_'

/-- The character after a prefix `kw` of `cs` is absent or a non-word
character — the trailing `\b` of a word-bounded keyword match. -/
def wordEndOk (kw cs : List Char) : Bool :=
  match cs.drop kw.length with
  | [] => true
  | c :: _ => ¬ isWordChar c

/-- The pattern `^\/install\b` of `NOISE_PATHS`. -/
def matchInstall (cs : List Char) : Bool :=
  ("/install".toList).isPrefixOf cs ∧ wordEndOk ("/install".toList) cs

/-- Source: `NOISE_PATHS.some(p => p.test(parsed.pathname))` — the four
anchored path patterns of `_tasks.js`. -/
def noisePathMatch (path : String) : Bool :=
  startsWithStr path "/agents/" ∨ startsWithStr path "/api/" ∨
  matchInstall path.toList ∨ startsWithStr path "/raw/"

/-- Source: `isDeploymentUrl(url)` in `_tasks.js` — the deployment score of
a URL, 0 for unparseable or noise URLs. -/
def isDeploymentUrl (url : String) : Nat :=
  match parseUrl url with
  | none => 0
  | some p =>
    if p.host ∈ NOISE_HOSTS then 0
    else if noisePathMatch p.path then 0
    else if endsWithStr p.host ".pages.dev" then 10
    else if endsWithStr p.host ".vercel.app" then 10
    else if endsWithStr p.host ".netlify.app" then 10
    else if endsWithStr p.host ".workers.dev" then 9
    else if endsWithStr p.host ".herokuapp.com" then 8
    else if endsWithStr p.host ".fly.dev" then 8
    else if endsWithStr p.host ".web.app" ∨ endsWithStr p.host ".firebaseapp.com" then 8
    else if endsWithStr p.host ".onrender.com" then 8
    else if endsWithStr p.host ".surge.sh" then 7
    else if endsWithStr p.host ".github.io" then 7
    else if ¬ strContains p.host "github" ∧ ¬ strContains p.host "npm" then 6
    else 0

/-- The character class terminating a URL token in the source's URL regex:
whitespace, angle/square brackets, parentheses, quotes (single, double,
backtick), comma, semicolon (`Char.ofNat 34/39/96` are the double quote,
apostrophe and backtick). -/
def isUrlStop (c : Char) : Bool :=
  c.isWhitespace ∨ c = '<' ∨ c = '>' ∨ c = '[' ∨ c = ']' ∨ c = '(' ∨ c = ')' ∨
  c = Char.ofNat 39 ∨ c = Char.ofNat 34 ∨ c = Char.ofNat 96 ∨ c = ',' ∨ c = ';'

/-- Case-insensitive prefix test against an already-lowercase pattern. -/
def isPrefixOfCI : List Char → List Char → Bool
  | [], _ => true
  | _ :: _, [] => false
  | p :: ps, c :: cs => p = c.toLower ∧ isPrefixOfCI ps cs

/-- The suffix of a stop-free run from its first case-insensitive
`http(s)://` occurrence onward — the single URL match the global regex can
produce inside one run (the match extends to the run's end, so runs hold at
most one match each). -/
def findHttpSuffix : List Char → Option (List Char)
  | [] => none
  | c :: cs =>
    if isPrefixOfCI ("https://".toList) (c :: cs) ∨
        isPrefixOfCI ("http://".toList) (c :: cs) then some (c :: cs)
    else findHttpSuffix cs

/-- JS `u.replace(/[.)]+$/, '')`: strip the trailing run of dots and
closing parentheses. -/
def stripUrlTrail (cs : List Char) : List Char :=
  (cs.reverse.dropWhile (fun c => c = '.' ∨ c = ')')).reverse

/-- Source: `extractUrlsFromText(text)` in `_tasks.js` — all URL-regex
matches with their trailing punctuation stripped. -/
def extractUrlsFromText (text : String) : List String :=
  if text = "" then []
  else
    ((splitOnP isUrlStop text.toList).filterMap findHttpSuffix).map
      (fun tok => String.mk (stripUrlTrail tok))

/-- Whether the first character of `cs` (or the end) fails to extend a word
leftward — the leading `\b` before a keyword, given the preceding
character `prev` (`none` at the string start). -/
def boundaryOk : Option Char → Bool
  | none => true
  | some c => ¬ isWordChar c

/-- Scan for a word-bounded occurrence of the (lowercase) keyword `kw`,
carrying the previously seen character for the leading boundary. -/
def kwSearchGo (kw : List Char) : Option Char → List Char → Bool
  | prev, [] => boundaryOk prev ∧ kw.isPrefixOf ([] : List Char) ∧ wordEndOk kw []
  | prev, c :: rest =>
    (boundaryOk prev ∧ kw.isPrefixOf (c :: rest) ∧ wordEndOk kw (c :: rest)) ∨
    kwSearchGo kw (some c) rest

/-- JS `/(kw1|kw2|...)\b/i.test(ctx)` for a `\b`-bounded alternation of
lowercase keywords: lowercase the context and search each keyword. -/
def testKeywords (kws : List String) (ctx : String) : Bool :=
  kws.any (fun kw => kwSearchGo kw.toList none ((toLowerStr ctx).toList))

/-- Source: `URL_CONTEXT_KEYWORDS` in `_tasks.js` (the alternatives of the
bonus regex). -/
def URL_CONTEXT_KEYWORDS : List String :=
  ["live", "demo", "website", "deployed", "homepage", "visit", "hosted",
   "app", "try it", "production", "dashboard"]

/-- Source: `URL_NEGATIVE_KEYWORDS` in `_tasks.js` (the alternatives of the
penalty regex). -/
def URL_NEGATIVE_KEYWORDS : List String :=
  ["built by", "created by", "credits", "author", "maintained by",
   "made by", "powered by"]

/-- JS `String.prototype.indexOf`: index of the first occurrence of `sub`,
as an accumulator-carrying scan. -/
def indexOfSubGo (sub : List Char) : List Char → Nat → Option Nat
  | [], i => if sub.isEmpty then some i else none
  | c :: cs, i =>
    if sub.isPrefixOf (c :: cs) then some i else indexOfSubGo sub cs (i + 1)

/-- See `indexOfSubGo` (`none` plays the role of `-1`). -/
def indexOfSub (hay sub : List Char) : Option Nat := indexOfSubGo sub hay 0

/-- The keyword bonus/penalty pass of `extractUrlFromReadme`: locate the
URL in the content, take the 200-character window before it, add 5 for a
context keyword and subtract 4 for a negative keyword. -/
def scoreAdjust (content : String) (p : String × Int) : String × Int :=
  match indexOfSub content.toList p.1.toList with
  | none => p
  | some idx =>
    let start := idx - 200
    let ctx := String.mk ((content.toList.drop start).take (idx - start))
    let s1 := if testKeywords URL_CONTEXT_KEYWORDS ctx then p.2 + 5 else p.2
    let s2 := if testKeywords URL_NEGATIVE_KEYWORDS ctx then s1 - 4 else s1
    (p.1, s2)

/-- JS stable `sort((a, b) => b.score - a.score)` followed by `[0]`: the
earliest entry of maximal score (replace only on strictly larger score). -/
def pickBestScore : List (String × Int) → Option String
  | [] => none
  | p :: ps => some ((ps.foldl (fun best q => if best.2 < q.2 then q else best) p).1)

/-- Source: `extractUrlFromReadme(content, skipUrls)` in `_tasks.js`. -/
def extractUrlFromReadme (content : String) (skipUrls : List String) : Option String :=
  if content = "" then none
  else
    let urls := extractUrlsFromText content
    if urls.isEmpty then none
    else
      let scored := (urls.map (fun u => (u, (isDeploymentUrl u : Int)))).filter
        (fun p => 0 < p.2 ∧ ¬ p.1 ∈ skipUrls)
      if scored.isEmpty then none
      else
        let adjusted := scored.map (scoreAdjust content)
        pickBestScore (adjusted.filter (fun p => 5 ≤ p.2))

/-- Source: `extractUrlFromDescription(description, skipUrls)` in
`_tasks.js`. -/
def extractUrlFromDescription (description : String) (skipUrls : List String) :
    Option String :=
  if description = "" then none
  else
    let scored := ((extractUrlsFromText description).map
        (fun u => (u, (isDeploymentUrl u : Int)))).filter
      (fun p => 0 < p.2 ∧ ¬ p.1 ∈ skipUrls)
    if scored.isEmpty then none else pickBestScore scored

/-- Source: `SELF_HOSTS` in `_tasks.js`. -/
def SELF_HOSTS : List String := ["aibtc-projects.pages.dev"]

/-- Whether a URL's hostname is a self host; an unparseable URL is not
skipped (the empty catch). -/
def selfHostUrl (url : String) : Bool :=
  match parseUrl url with
  | some p => p.host ∈ SELF_HOSTS
  | none => false

/-- JS `Map.set(url, (get(url) || 0) + 1)`: bump in place, else append
(insertion order preserved). -/
def countMapInc (counts : List (String × Nat)) (url : String) : List (String × Nat) :=
  if counts.any (fun pr => pr.1 = url) then
    counts.map (fun pr => if pr.1 = url then (pr.1, pr.2 + 1) else pr)
  else counts ++ [(url, 1)]

/-- The best-entry loop of `extractUrlFromMessages`: highest count wins,
ties broken by a strictly higher deployment score (`isDeploymentUrl(null)`
is 0). -/
def pickBestCount (counts : List (String × Nat)) : Option String :=
  (counts.foldl (fun acc pr =>
    if acc.2 < pr.2 ∨ (pr.2 = acc.2 ∧
        (match acc.1 with | some b => isDeploymentUrl b | none => 0) < isDeploymentUrl pr.1)
    then (some pr.1, pr.2) else acc) ((none : Option String), 0)).1

/-- Source: `extractUrlFromMessages(messages, item)` in `_tasks.js` — count
deployment URLs across messages that mention the item, skipping self
hosts. -/
def extractUrlFromMessages (messages : List Msg) (item : Item) : Option String :=
  if messages.isEmpty then none
  else
    let counts := messages.foldl (fun counts msg =>
      if (matchMention (toLowerStr msg.messagePreview) item).isSome then
        (extractUrlsFromText msg.messagePreview).foldl (fun counts url =>
          if isDeploymentUrl url = 0 then counts
          else if selfHostUrl url then counts
          else countMapInc counts url) counts
      else counts) ([] : List (String × Nat))
    if counts.isEmpty then none else pickBestCount counts

/-- Per-repo website-scan bookkeeping in the github-scan KV record:
`website` is the last website-scan time (stored as an ISO timestamp in the
source, modelled as epoch milliseconds; `none` when the field is absent)
and `websiteFails` the consecutive README-fetch failures (0 when absent,
matching the `|| 0` reads). -/
structure RepoScanState where
  website : Option Int
  websiteFails : Nat
deriving DecidableEq

/-- The github-scan KV record: the website filter version (0 for the falsy
missing field) and the per-repo states, as a JS object keyed by
`owner/repo`. -/
structure ScanState where
  websiteFilterVersion : Nat
  repos : List (String × RepoScanState)
deriving DecidableEq

/-- JS `scanState.repos[rp] || {}`. -/
def reposGet (rs : List (String × RepoScanState)) (k : String) : RepoScanState :=
  ((rs.find? (fun pr => pr.1 = k)).map (fun pr => pr.2)).getD
    { website := none, websiteFails := 0 }

/-- JS `scanState.repos[rp] = v`: overwrite in place, else append (object
key order preserved). -/
def reposSet (rs : List (String × RepoScanState)) (k : String) (v : RepoScanState) :
    List (String × RepoScanState) :=
  if rs.any (fun pr => pr.1 = k) then
    rs.map (fun pr => if pr.1 = k then (k, v) else pr)
  else rs ++ [(k, v)]

/-- JS `if (scanState.repos[rp]) delete scanState.repos[rp].website`: a
no-op when the key is absent. -/
def reposClearWebsite (rs : List (String × RepoScanState)) (k : String) :
    List (String × RepoScanState) :=
  rs.map (fun pr => if pr.1 = k then (k, { pr.2 with website := none }) else pr)

/-- JS `Set.add` on a set modelled as a duplicate-free list (insertion
order preserved). -/
def setAdd (s : List String) (x : String) : List String :=
  if x ∈ s then s else s ++ [x]

/-- JS `Set.delete`. -/
def setDel (s : List String) (x : String) : List String :=
  s.filter (fun y => ¬ y = x)

/-- The outcome of the README collaborator for one repo: a successful
response body, a non-ok response (skipped silently), or a thrown fetch
error (recorded as a failure). -/
inductive ReadmeResult
  | ok (text : String)
  | notOk
  | fetchError
deriving DecidableEq

/-- The collaborators of `discoverWebsites`: the README fetcher keyed by
`owner/repo`, the archived message list, and `Date.now()`. -/
structure DiscoverEnv where
  readme : String → ReadmeResult
  archive : List Msg
  now : Int

/-- The mutable state of the `discoverWebsites` loop: the item array, the
claimed-URL set, the scan state, and the discovered/scanned/error
accumulators. -/
structure DiscoverState where
  items : List Item
  claimed : List String
  scan : ScanState
  discovered : Nat
  scannedRepos : List String
  errors : List String

/-- The tail of one discovery iteration (`_tasks.js` 1059–1089), after the
README stage produced `found` (the URL/source pair of priorities 1–3, if
any): priority 4 scans the deliverables, priority 5 the message archive;
a URL already in the claimed set is dropped; an assignment writes the
website, bumps `updatedAt`, claims the URL and counts it; the repo's scan
state and the scanned list are recorded in every case. -/
def discoverFinish (env : DiscoverEnv) (st : DiscoverState) (i : Nat) (item : Item)
    (repoPath : String) (repoState : RepoScanState)
    (found : Option (String × String)) : DiscoverState :=
  let f2 : Option (String × String) :=
    match found with
    | some r => some r
    | none =>
      (item.deliverables.find? (fun d =>
        ¬ d.url = "" ∧ ¬ isDeploymentUrl d.url = 0 ∧ ¬ selfHostUrl d.url = true)).map
        (fun d => (d.url, "deliverable"))
  let f3 : Option (String × String) :=
    match f2 with
    | some r => some r
    | none => (extractUrlFromMessages env.archive item).map (fun u => (u, "message"))
  let f4 : Option (String × String) :=
    match f3 with
    | some r => if r.1 ∈ st.claimed then none else some r
    | none => none
  let st1 :=
    match f4 with
    | some r =>
      { st with
        items := st.items.set i
          { item with
            website := some { url := r.1, source := r.2, discoveredAt := env.now },
            updatedAt := env.now },
        claimed := setAdd st.claimed r.1,
        discovered := st.discovered + 1 }
    | none => st
  let doneRepo : RepoScanState := { repoState with website := some env.now, websiteFails := 0 }
  { st1 with
    scan := { st1.scan with repos := reposSet st1.scan.repos repoPath doneRepo },
    scannedRepos := st1.scannedRepos ++ [repoPath] }

/-- The discovery half of one loop iteration (`_tasks.js` 1015–1089),
entered once the item at index `i` (already written into `st.items`) has no
website: gate on a repo-typed GitHub URL, the archived state and the scan
cooldown, then try the five priority sources, drop a claimed URL, assign
and record the scan. -/
def discoverCore (env : DiscoverEnv) (st : DiscoverState) (i : Nat) (item : Item) :
    DiscoverState :=
  match parseGithubUrl item.githubUrl with
  | none => st
  | some p =>
    if ¬ p.type = "repo" then st
    else if (item.githubData.map (fun gd => gd.state)).getD "" = "archived" then st
    else
      let repoPath := p.owner ++ "/" ++ p.repo
      let repoState := reposGet st.scan.repos repoPath
      let lastScan := repoState.website.getD 0
      let cooldown : Int :=
        if 3 ≤ repoState.websiteFails then 6 * 60 * 60 * 1000 else 60 * 60 * 1000
      if env.now - lastScan < cooldown then st
      else
        let hp := (item.githubData.map (fun gd => gd.homepage)).getD ""
        let p1 : Option (String × String) :=
          if ¬ hp = "" ∧ 0 < isDeploymentUrl hp then some (hp, "homepage") else none
        let p2 : Option (String × String) :=
          match p1 with
          | some r => some r
          | none =>
            (extractUrlFromDescription
              ((item.githubData.map (fun gd => gd.title)).getD "") st.claimed).map
              (fun u => (u, "description"))
        match p2 with
        | some r => discoverFinish env st i item repoPath repoState (some r)
        | none =>
          match env.readme repoPath with
          | ReadmeResult.fetchError =>
            let failRepo : RepoScanState :=
              { repoState with website := some env.now,
                               websiteFails := repoState.websiteFails + 1 }
            { st with
              scan := { st.scan with repos := reposSet st.scan.repos repoPath failRepo },
              errors := st.errors ++ [repoPath ++ ": README fetch failed"] }
          | ReadmeResult.notOk => discoverFinish env st i item repoPath repoState none
          | ReadmeResult.ok text =>
            discoverFinish env st i item repoPath repoState
              ((extractUrlFromReadme text st.claimed).map (fun u => (u, "readme")))

/-- One iteration of the `for (const item of data.items)` loop of
`discoverWebsites` (`_tasks.js` 985–1090), at index `i`. In-place mutation
of the shared item objects is modelled by writing the updated item back
into the array, so later iterations observe earlier updates, as in the
source. First the homepage sync (987–991): a homepage-sourced website is
rewritten to the current `githubData.homepage` — without consulting or
updating the claimed-URL set. Then the re-evaluation (993–1011): a website
failing the noise filter, or a non-homepage website whose URL some other
item claims with homepage source, is cleared (unclaiming the URL and
resetting the repo's scan cooldown) and the item falls through to
discovery; an item still holding a website is skipped. -/
def discoverStep (env : DiscoverEnv) (st : DiscoverState) (i : Nat) : DiscoverState :=
  match st.items.get? i with
  | none => st
  | some item0 =>
    let hp := (item0.githubData.map (fun gd => gd.homepage)).getD ""
    let item1 :=
      match item0.website with
      | some w =>
        if w.source = "homepage" ∧ ¬ hp = "" ∧ ¬ w.url = hp then
          { item0 with website := some { w with url := hp, discoveredAt := env.now } }
        else item0
      | none => item0
    let itemsS := st.items.set i item1
    let stS := { st with items := itemsS }
    match item1.website with
    | some w =>
      let shouldClear : Bool :=
        isDeploymentUrl w.url = 0 ∨
        (¬ w.source = "homepage" ∧ itemsS.enum.any (fun pr =>
          decide (¬ pr.1 = i) &&
          match pr.2.website with
          | some ow => decide (ow.url = w.url ∧ ow.source = "homepage")
          | none => false) = true)
      if shouldClear then
        let item2 := { item1 with website := none }
        let scan2 :=
          match parseGithubUrl item1.githubUrl with
          | some p =>
            { stS.scan with
              repos := reposClearWebsite stS.scan.repos (p.owner ++ "/" ++ p.repo) }
          | none => stS.scan
        discoverCore env
          { stS with
            items := itemsS.set i item2,
            claimed := setDel stS.claimed w.url,
            scan := scan2 } i item2
      else stS
    | none => discoverCore env stS i item1

/-- Source: `discoverWebsites(env)` in `_tasks.js` (959–1096) — reset the
per-repo website cooldowns when the filter version is below 5, build the
claimed-URL set from the non-null website URLs, then run the per-item loop
over the array. -/
def discoverWebsites (env : DiscoverEnv) (scan0 : ScanState) (items : List Item) :
    DiscoverState :=
  let scan1 :=
    if scan0.websiteFilterVersion < 5 then
      { websiteFilterVersion := 5,
        repos := scan0.repos.map
          (fun pr => (pr.1, ({ website := none, websiteFails := 0 } : RepoScanState))) }
    else scan0
  let claimed0 := items.foldl (fun s it =>
    match it.website with
    | some w => if ¬ w.url = "" then setAdd s w.url else s
    | none => s) []
  (List.range items.length).foldl (discoverStep env)
    { items := items, claimed := claimed0, scan := scan1,
      discovered := 0, scannedRepos := [], errors := [] }

/-- A repo snapshot advertising the shared deployment URL as its GitHub
homepage. -/
def gdSiteHome : GithubData :=
  { type := "repo", state := "active", merged := false,
    homepage := "https://site.pages.dev", title := "", fetchedAt := some 0,
    notFoundCount := 0 }

/-- First record of the duplicate-claim run: a homepage-sourced website
claim whose repository homepage has moved to the shared URL. -/
def itemCEA : Item :=
  { baseItem with
    id := "r_a", githubUrl := "https://github.com/org/alpha",
    githubData := some gdSiteHome,
    website := some { url := "https://a.pages.dev", source := "homepage",
                      discoveredAt := 0 } }

/-- Second record of the duplicate-claim run, an item distinct from
`itemCEA` whose repository advertises the same homepage. -/
def itemCEB : Item :=
  { baseItem with
    id := "r_b", githubUrl := "https://github.com/org/beta",
    githubData := some gdSiteHome,
    website := some { url := "https://b.pages.dev", source := "homepage",
                      discoveredAt := 0 } }

/-- Collaborators for the duplicate-claim run; the README fetcher is never
consulted on this input (both items keep a website and skip discovery). -/
def envCE : DiscoverEnv :=
  { readme := fun _ => ReadmeResult.notOk, archive := [], now := 1700000000000 }

/-- A scan state at the current filter version with no per-repo entries. -/
def scanCE : ScanState := { websiteFilterVersion := 5, repos := [] }

/-- **C4**: the claimed invariant — after `discoverWebsites` runs to
completion no two distinct items hold an identical non-null website URL,
including via the homepage-sync path — fails on the code. The homepage-sync
path (`_tasks.js` 987–991) rewrites a homepage-sourced website claim to the
current `githubData.homepage` without consulting or updating the
claimed-URL set, and the re-evaluation clause exempts homepage-sourced
claims, so two distinct records whose repositories advertise the same
GitHub homepage both finish the run holding that same URL. -/
theorem C4_website_claims_not_unique :
    ¬ itemCEA.id = itemCEB.id ∧
    (discoverWebsites envCE scanCE [itemCEA, itemCEB]).items.map
        (fun it => it.website.map (fun w => w.url)) =
      [some "https://site.pages.dev", some "https://site.pages.dev"] := by
  decide

end Roadmap
